import Mathlib

/-!
Finger trails (js/fingerTrail.js, js/sketch.js)

A shallow embedding of the `FingerTrail` class and of the per-frame `draw`
function of the sketch, over exact rational arithmetic, together with the
properties of smoothing, debounced sampling, idle decay and curve rendering.

Conventions of the embedding:

* JavaScript numbers (coordinates, timestamps, confidences) are rationals;
  `frameCount` and `maxLength` are natural numbers.
* The p5 clock `millis()` and the frame counter `frameCount` are inputs of the
  call that reads them; every read of `millis()` inside one call returns the
  same value.
* Mutation of `this` is explicit state passing; drawing is a list of emitted
  canvas commands, in emission order.
-/

set_option autoImplicit false

/-! ## Geometry primitives (p5) -/

/-- A `p5.Vector` made by `createVector(x, y)`: only `x` and `y` are ever read. -/
structure Vec where
  x : ℚ
  y : ℚ
deriving DecidableEq

/-- The p5 function `lerp(start, stop, amt)`, which is `amt * (stop - start) + start`. -/
def lerp (start stop amt : ℚ) : ℚ := amt * (stop - start) + start

/-- The static `p5.Vector.add(a, b)`. -/
def Vec.add (a b : Vec) : Vec := ⟨a.x + b.x, a.y + b.y⟩

/-- The static `p5.Vector.sub(a, b)`. -/
def Vec.sub (a b : Vec) : Vec := ⟨a.x - b.x, a.y - b.y⟩

/-- The static `p5.Vector.mult(v, n)`. -/
def Vec.mult (v : Vec) (n : ℚ) : Vec := ⟨v.x * n, v.y * n⟩

/-- A p5 colour as made by `color(r, g, b)`. -/
structure Color where
  r : ℕ
  g : ℕ
  b : ℕ
deriving DecidableEq

/-- The canvas calls the program makes, as data. -/
inductive DrawCmd where
  | background (c : String)
  | stroke (c : Color)
  | strokeWeight (w : ℚ)
  | noFill
  | line (x1 y1 x2 y2 : ℚ)
  | bezier (x1 y1 x2 y2 x3 y3 x4 y4 : ℚ)
  | image (x y : ℚ)
deriving DecidableEq

/-! ## The `FingerTrail` class -/

/-- The fields of a `FingerTrail` object. -/
structure FingerTrail where
  maxLength : ℕ
  col : Color
  points : List Vec
  current : Option Vec
  smoothingFactor : ℚ
  debounceDelay : ℚ
  lastRecordedTime : ℚ
  idleThreshold : ℚ
deriving DecidableEq

namespace FingerTrail

/-- The class constructor `new FingerTrail(maxLength, col, debounceDelay, idleThreshold)`. -/
def constructor (maxLength : ℕ) (col : Color) (debounceDelay idleThreshold : ℚ) : FingerTrail :=
  { maxLength := maxLength
    col := col
    points := []
    current := none
    smoothingFactor := 3 / 10
    debounceDelay := debounceDelay
    lastRecordedTime := 0
    idleThreshold := idleThreshold }

/-- The smoothed position computed by the first `if` of `update`: a copy of the
new point when `current` is `null`, else the component-wise `lerp`. -/
def smoothed (t : FingerTrail) (newPoint : Vec) : Vec :=
  match t.current with
  | none => newPoint
  | some c =>
    ⟨lerp c.x newPoint.x t.smoothingFactor, lerp c.y newPoint.y t.smoothingFactor⟩

/-- The debounce test of `update`: `millis() - this.lastRecordedTime >= this.debounceDelay`. -/
def records (t : FingerTrail) (millis : ℚ) : Bool :=
  decide (millis - t.lastRecordedTime ≥ t.debounceDelay)

/-- The method `update(newPoint)`, with the clock reading `millis` as input. -/
def update (t : FingerTrail) (newPoint : Vec) (millis : ℚ) : FingerTrail :=
  let t1 : FingerTrail := { t with current := some (t.smoothed newPoint) }
  if t1.records millis then
    let t2 : FingerTrail :=
      { t1 with points := t1.points ++ [t.smoothed newPoint], lastRecordedTime := millis }
    if t2.points.length > t2.maxLength then
      { t2 with points := t2.points.tail }
    else t2
  else t1

/-- The idle-decay step at the head of `draw`: one `shift()` when the trail has
been idle for longer than `idleThreshold`, is non-empty, and `frameCount % 5 === 0`. -/
def decay (t : FingerTrail) (millis : ℚ) (frameCount : ℕ) : FingerTrail :=
  if millis - t.lastRecordedTime > t.idleThreshold ∧ t.points.length > 0 then
    if frameCount % 5 = 0 then { t with points := t.points.tail } else t
  else t

/-- The body of the `for` loop of `draw` at index `i`: the `bezier` call for the
pair `points[i]`, `points[i + 1]`, with control points from the neighbours.
Every index read is in range when the loop condition `i < points.length - 1`
holds, so the default of `getD` is never used. -/
def bezierSegment (points : List Vec) (i : ℕ) : DrawCmd :=
  let p1 := points.getD i ⟨0, 0⟩
  let p2 := points.getD (i + 1) ⟨0, 0⟩
  let p0 := if i = 0 then p1 else points.getD (i - 1) ⟨0, 0⟩
  let p3 := if i + 2 < points.length then points.getD (i + 2) ⟨0, 0⟩ else p2
  let cp1 := Vec.add p1 (Vec.mult (Vec.sub p2 p0) (1 / 6))
  let cp2 := Vec.sub p2 (Vec.mult (Vec.sub p3 p1) (1 / 6))
  DrawCmd.bezier p1.x p1.y cp1.x cp1.y cp2.x cp2.y p2.x p2.y

/-- The `for` loop of `draw` from index `i` on: `for (; i < points.length - 1; i++)`. -/
def bezierLoop (points : List Vec) (i : ℕ) : List DrawCmd :=
  if i < points.length - 1 then
    bezierSegment points i :: bezierLoop points (i + 1)
  else []
termination_by points.length - 1 - i

/-- The drawing part of `draw` (after the decay step), as the list of canvas
calls it makes on the given history. -/
def strokes (col : Color) (points : List Vec) : List DrawCmd :=
  if points.length < 2 then []
  else
    [DrawCmd.stroke col, DrawCmd.strokeWeight 4, DrawCmd.noFill] ++
      (if points.length = 2 then
        [DrawCmd.line (points.getD 0 ⟨0, 0⟩).x (points.getD 0 ⟨0, 0⟩).y
          (points.getD 1 ⟨0, 0⟩).x (points.getD 1 ⟨0, 0⟩).y]
      else bezierLoop points 0)

/-- The method `draw()`, with the clock reading and the frame counter as input:
the trail after the decay step, and the canvas calls made. -/
def draw (t : FingerTrail) (millis : ℚ) (frameCount : ℕ) : FingerTrail × List DrawCmd :=
  let t1 := t.decay millis frameCount
  (t1, strokes t1.col t1.points)

end FingerTrail

/-! ## Call sequences on one trail -/

/-- One method call on a `FingerTrail`, with the clock (and frame counter) it reads. -/
inductive Call where
  | update (newPoint : Vec) (millis : ℚ)
  | draw (millis : ℚ) (frameCount : ℕ)
deriving DecidableEq

/-- The clock reading of a call. -/
def Call.millis : Call → ℚ
  | Call.update _ m => m
  | Call.draw m _ => m

namespace FingerTrail

/-- The trail after one call. -/
def step (t : FingerTrail) : Call → FingerTrail
  | Call.update p m => t.update p m
  | Call.draw m f => (t.draw m f).1

/-- The trail after a sequence of calls, in order. -/
def run (t : FingerTrail) (cs : List Call) : FingerTrail := cs.foldl step t

/-- For each call of a sequence, whether it pushed a point onto `points`
(an `update` whose debounce test passed). -/
def appended (t : FingerTrail) : List Call → List Bool
  | [] => []
  | c :: cs =>
    (match c with
      | Call.update _ m => t.records m
      | Call.draw _ _ => false) :: appended (t.step c) cs

end FingerTrail

/-! ## The sketch (js/sketch.js) -/

/-- One entry of `hands`: the fields `draw` reads of a detection. -/
structure Hand where
  confidence : ℚ
  handedness : String
  keypoints : List Vec
deriving DecidableEq

/-- The two trails owned by the sketch. -/
structure Sketch where
  fingerTrailLeft : FingerTrail
  fingerTrailRight : FingerTrail
deriving DecidableEq

/-- The sizes `draw` reads to centre the image: `width`, `height`,
`easterEggImg.width`, `easterEggImg.height`. -/
structure Canvas where
  width : ℚ
  height : ℚ
  imgWidth : ℚ
  imgHeight : ℚ

/-- The global `easterEggThreshold`. -/
def easterEggThreshold : ℚ := 100

/-- The test `dist(x1, y1, x2, y2) < r` of p5 (`dist` is the Euclidean distance),
decided exactly on rationals through the squares; `distLt_iff_sqrt` relates it
to the square root. -/
def distLt (x1 y1 x2 y2 r : ℚ) : Prop :=
  0 < r ∧ (x2 - x1) ^ 2 + (y2 - y1) ^ 2 < r ^ 2

instance (x1 y1 x2 y2 r : ℚ) : Decidable (distLt x1 y1 x2 y2 r) :=
  inferInstanceAs (Decidable (_ ∧ _))

namespace Sketch

/-- The trails as created by `setup`. -/
def setup : Sketch :=
  { fingerTrailLeft := FingerTrail.constructor 100 ⟨0, 255, 0⟩ 100 3000
    fingerTrailRight := FingerTrail.constructor 100 ⟨0, 0, 255⟩ 100 3000 }

/-- The body of `for (let hand of hands)` in `draw`. Reading `.x` of a missing
`hand.keypoints[8]` throws a `TypeError`. -/
def processHand (s : Sketch) (hand : Hand) (millis : ℚ) : Except String Sketch :=
  if hand.confidence > 1 / 10 then
    match hand.keypoints[8]? with
    | none => Except.error "TypeError"
    | some indexTip =>
      let rawPt : Vec := ⟨indexTip.x, indexTip.y⟩
      if hand.handedness = "Left" then
        Except.ok { s with fingerTrailLeft := s.fingerTrailLeft.update rawPt millis }
      else
        Except.ok { s with fingerTrailRight := s.fingerTrailRight.update rawPt millis }
  else Except.ok s

/-- The loop over `hands`, stopping at the first error. -/
def processHands (s : Sketch) (hands : List Hand) (millis : ℚ) : Except String Sketch :=
  match hands with
  | [] => Except.ok s
  | hand :: rest =>
    match processHand s hand millis with
    | Except.error e => Except.error e
    | Except.ok s1 => processHands s1 rest millis

/-- The easter-egg check at the end of `draw`: the `image` call, if any. -/
def easterEgg (cv : Canvas) (s : Sketch) : List DrawCmd :=
  match s.fingerTrailLeft.current, s.fingerTrailRight.current with
  | some l, some r =>
    if distLt l.x l.y r.x r.y easterEggThreshold then
      [DrawCmd.image (cv.width / 2 - cv.imgWidth / 2) (cv.height / 2 - cv.imgHeight / 2)]
    else []
  | _, _ => []

/-- The function `draw()` of the sketch for one frame: the trails after the
frame and the canvas calls made, or the error thrown. -/
def draw (cv : Canvas) (s : Sketch) (hands : List Hand) (millis : ℚ) (frameCount : ℕ) :
    Except String (Sketch × List DrawCmd) :=
  match processHands s hands millis with
  | Except.error e => Except.error e
  | Except.ok s1 =>
    let l := s1.fingerTrailLeft.draw millis frameCount
    let r := s1.fingerTrailRight.draw millis frameCount
    let s2 : Sketch := { fingerTrailLeft := l.1, fingerTrailRight := r.1 }
    Except.ok (s2, [DrawCmd.background "#fefefe"] ++ l.2 ++ r.2 ++ easterEgg cv s2)

end Sketch

/-! ## Idle frames -/

/-- Consecutive `draw` calls on one trail, the frame counter going up by one per
call from `frameCount`, with the given clock readings. -/
def renders (frameCount : ℕ) : List ℚ → List Call
  | [] => []
  | m :: ms => Call.draw m frameCount :: renders (frameCount + 1) ms

/-- The number of multiples of 5 among `frameCount, ..., frameCount + n - 1`. -/
def decayFrames (frameCount : ℕ) : ℕ → ℕ
  | 0 => 0
  | n + 1 => (if frameCount % 5 = 0 then 1 else 0) + decayFrames (frameCount + 1) n

/-! ## Raw points and successive frames -/

/-- Whether a call is an `update`. -/
def Call.isUpdate : Call → Bool
  | Call.update _ _ => true
  | Call.draw _ _ => false

/-- The raw points passed to `update` in a call sequence, in call order. -/
def rawPoints : List Call → List Vec
  | [] => []
  | Call.update p _ :: cs => p :: rawPoints cs
  | Call.draw _ _ :: cs => rawPoints cs

/-- The point `q` lies in the axis-aligned bounding box of the points `rs`:
some `x` of `rs` is at most `q.x` and some is at least `q.x` (so
`min x ≤ q.x ≤ max x`), and likewise for `y`. -/
def inBox (rs : List Vec) (q : Vec) : Prop :=
  (∃ a ∈ rs, a.x ≤ q.x) ∧ (∃ b ∈ rs, q.x ≤ b.x) ∧
  (∃ a ∈ rs, a.y ≤ q.y) ∧ (∃ b ∈ rs, q.y ≤ b.y)

instance (rs : List Vec) (q : Vec) : Decidable (inBox rs q) :=
  inferInstanceAs (Decidable (_ ∧ _ ∧ _ ∧ _))

/-- The sketch over successive frames: `draw` is called once per frame with the
`hands`, the clock reading and the `frameCount` of that frame; the canvas calls
are collected frame by frame, and the first error thrown ends the run. -/
def Sketch.frames (cv : Canvas) (s : Sketch) :
    List (List Hand × ℚ × ℕ) → Except String (Sketch × List (List DrawCmd))
  | [] => Except.ok (s, [])
  | (hands, m, f) :: rest =>
    match Sketch.draw cv s hands m f with
    | Except.error e => Except.error e
    | Except.ok (s1, out) =>
      match Sketch.frames cv s1 rest with
      | Except.error e => Except.error e
      | Except.ok (s2, outs) => Except.ok (s2, out :: outs)

/-! ## Bounded history -/

theorem FingerTrail.update_maxLength (t : FingerTrail) (p : Vec) (m : ℚ) :
    (t.update p m).maxLength = t.maxLength := by
  unfold FingerTrail.update
  dsimp only
  split_ifs <;> rfl

theorem FingerTrail.update_length_le (t : FingerTrail) (p : Vec) (m : ℚ)
    (h : t.points.length ≤ t.maxLength) :
    (t.update p m).points.length ≤ t.maxLength := by
  unfold FingerTrail.update
  dsimp only
  split_ifs with h1 h2
  · simp only [List.length_tail, List.length_append, List.length_singleton]
    omega
  · simp only [List.length_append, List.length_singleton] at h2 ⊢
    omega
  · exact h

theorem FingerTrail.decay_length_le (t : FingerTrail) (m : ℚ) (f : ℕ) :
    (t.decay m f).points.length ≤ t.points.length := by
  unfold FingerTrail.decay
  split_ifs <;> simp

theorem FingerTrail.decay_maxLength (t : FingerTrail) (m : ℚ) (f : ℕ) :
    (t.decay m f).maxLength = t.maxLength := by
  unfold FingerTrail.decay
  split_ifs <;> rfl

theorem FingerTrail.step_bounded (t : FingerTrail) (c : Call)
    (h : t.points.length ≤ t.maxLength) :
    (t.step c).maxLength = t.maxLength ∧ (t.step c).points.length ≤ t.maxLength := by
  cases c with
  | update p m => exact ⟨t.update_maxLength p m, t.update_length_le p m h⟩
  | draw m f =>
    exact ⟨t.decay_maxLength m f, le_trans (t.decay_length_le m f) h⟩

theorem FingerTrail.run_bounded (cs : List Call) :
    ∀ t : FingerTrail, t.points.length ≤ t.maxLength →
      (t.run cs).maxLength = t.maxLength ∧ (t.run cs).points.length ≤ t.maxLength := by
  induction cs with
  | nil => intro t h; exact ⟨rfl, h⟩
  | cons c cs ih =>
    intro t h
    obtain ⟨h1, h2⟩ := t.step_bounded c h
    have := ih (t.step c) (by rw [h1]; exact h2)
    rw [h1] at this
    exact this

/-- C1: for a trail constructed with any `maxLength` (so in particular a
positive one) and any finite sequence of `update` and `draw` calls with
arbitrary points, clock readings and frame counters, after every call of the
sequence (every prefix) `points.length ≤ maxLength`. -/
theorem points_length_le_maxLength (maxLength : ℕ) (col : Color)
    (debounceDelay idleThreshold : ℚ) (cs : List Call) (n : ℕ) :
    (((FingerTrail.constructor maxLength col debounceDelay idleThreshold).run (cs.take n)).points.length
      ≤ maxLength) :=
  ((FingerTrail.run_bounded (cs.take n)
    (FingerTrail.constructor maxLength col debounceDelay idleThreshold) (Nat.zero_le _)).2)

/-! ## The three-update scenario -/

/-- C2 (as stated, refuted): on a fresh trail with `maxLength = 3` and
`debounceDelay = 100`, the update with `P1 = (1, 2)` at time 0 pushes nothing, so
the history is `[]` and not `[P1]`; after the updates at 50 and 150 the history
has one entry, not two. -/
theorem scenario_history_counterexample :
    ((FingerTrail.constructor 3 ⟨0, 255, 0⟩ 100 3000).update ⟨1, 2⟩ 0).points = [] ∧
    ((FingerTrail.constructor 3 ⟨0, 255, 0⟩ 100 3000).update ⟨1, 2⟩ 0).points ≠ [⟨1, 2⟩] ∧
    ((((FingerTrail.constructor 3 ⟨0, 255, 0⟩ 100 3000).update ⟨1, 2⟩ 0).update ⟨11, 2⟩ 50).update
      ⟨21, 2⟩ 150).points.length ≠ 2 := by
  refine ⟨?_, ?_, ?_⟩ <;>
    norm_num [FingerTrail.update, FingerTrail.constructor, FingerTrail.records, FingerTrail.smoothed, lerp]

/-- C2 (amended): on a fresh trail with `maxLength = 3` and `debounceDelay = 100`,
for any points `P1`, `P2`, `P3`: after `update(P1)` at 0, `current = P1` and the
history is empty; after `update(P2)` at 50, `current` is 30% of the way from `P1`
to `P2` and the history is still empty; after `update(P3)` at 150 a point is
pushed, the history is `[current]` with exactly one entry, and
`lastRecordedTime = 150`. Of the three calls only the third pushes. -/
theorem scenario_history (col : Color) (idleThreshold : ℚ) (P1 P2 P3 : Vec) :
    ((FingerTrail.constructor 3 col 100 idleThreshold).update P1 0).current = some P1 ∧
    ((FingerTrail.constructor 3 col 100 idleThreshold).update P1 0).points = [] ∧
    (((FingerTrail.constructor 3 col 100 idleThreshold).update P1 0).update P2 50).current
      = some ⟨P1.x + 3 / 10 * (P2.x - P1.x), P1.y + 3 / 10 * (P2.y - P1.y)⟩ ∧
    (((FingerTrail.constructor 3 col 100 idleThreshold).update P1 0).update P2 50).points = [] ∧
    (∃ c : Vec,
      ((((FingerTrail.constructor 3 col 100 idleThreshold).update P1 0).update P2 50).update
        P3 150).current = some c ∧
      ((((FingerTrail.constructor 3 col 100 idleThreshold).update P1 0).update P2 50).update
        P3 150).points = [c]) ∧
    ((((FingerTrail.constructor 3 col 100 idleThreshold).update P1 0).update P2 50).update
        P3 150).lastRecordedTime = 150 ∧
    (FingerTrail.constructor 3 col 100 idleThreshold).appended
      [Call.update P1 0, Call.update P2 50, Call.update P3 150] = [false, false, true] := by
  refine ⟨?_, ?_, ?_, ?_, ?_, ?_, ?_⟩ <;>
    norm_num [FingerTrail.update, FingerTrail.constructor, FingerTrail.records, FingerTrail.smoothed,
      lerp, FingerTrail.appended, FingerTrail.step]
  ring_nf
  simp

/-! ## Debounced sampling -/

theorem FingerTrail.update_debounceDelay (t : FingerTrail) (p : Vec) (m : ℚ) :
    (t.update p m).debounceDelay = t.debounceDelay := by
  unfold FingerTrail.update
  dsimp only
  split_ifs <;> rfl

theorem FingerTrail.update_lastRecordedTime (t : FingerTrail) (p : Vec) (m : ℚ) :
    (t.update p m).lastRecordedTime = if t.records m then m else t.lastRecordedTime := by
  unfold FingerTrail.update FingerTrail.records
  dsimp only
  split_ifs <;> rfl

theorem FingerTrail.step_debounceDelay (t : FingerTrail) (c : Call) :
    (t.step c).debounceDelay = t.debounceDelay := by
  cases c with
  | update p m => exact t.update_debounceDelay p m
  | draw m f =>
    show (t.decay m f).debounceDelay = _
    unfold FingerTrail.decay
    split_ifs <;> rfl

theorem FingerTrail.draw_lastRecordedTime (t : FingerTrail) (m : ℚ) (f : ℕ) :
    (t.draw m f).1.lastRecordedTime = t.lastRecordedTime := by
  show (t.decay m f).lastRecordedTime = _
  unfold FingerTrail.decay
  split_ifs <;> rfl

theorem FingerTrail.records_iff (t : FingerTrail) (m : ℚ) :
    t.records m = true ↔ t.debounceDelay ≤ m - t.lastRecordedTime := by
  simp [FingerTrail.records]

/-- A call that pushes reads a clock at least `debounceDelay` after the
`lastRecordedTime` the sequence started from, when clock readings never decrease. -/
theorem FingerTrail.appended_after_last (cs : List Call) :
    ∀ t : FingerTrail, (cs.map Call.millis).Pairwise (· ≤ ·) →
      ∀ (j : ℕ) (b : Call), (t.appended cs)[j]? = some true → cs[j]? = some b →
        t.debounceDelay ≤ b.millis - t.lastRecordedTime := by
  induction cs with
  | nil => intro t _ j b h; simp [FingerTrail.appended] at h
  | cons c cs ih =>
    intro t hs j b hj hb
    rw [List.map_cons, List.pairwise_cons] at hs
    cases j with
    | zero =>
      simp only [FingerTrail.appended, List.getElem?_cons_zero, Option.some.injEq] at hj hb
      subst hb
      cases c with
      | update p m => exact (t.records_iff m).1 hj
      | draw m f => simp at hj
    | succ j =>
      simp only [FingerTrail.appended, List.getElem?_cons_succ] at hj hb
      have h1 := ih (t.step c) hs.2 j b hj hb
      rw [t.step_debounceDelay c] at h1
      have hcb : c.millis ≤ b.millis :=
        hs.1 _ (List.mem_map_of_mem _ (List.getElem?_mem hb))
      cases c with
      | update p m =>
        simp only [FingerTrail.step, t.update_lastRecordedTime p m] at h1
        by_cases hr : t.records m = true
        · rw [if_pos hr] at h1
          have h2 := (t.records_iff m).1 hr
          have hmb : m ≤ b.millis := hcb
          linarith
        · rw [if_neg hr] at h1
          exact h1
      | draw m f =>
        simp only [FingerTrail.step, t.draw_lastRecordedTime m f] at h1
        exact h1

/-- C4: for every trail state and every sequence of `update` and `draw` calls
whose clock readings never decrease, any two calls of the sequence that both
push a point onto the history (only `update` calls do) are at least
`debounceDelay` apart: the later clock reading minus the earlier one is
`≥ debounceDelay`. -/
theorem appends_debounceDelay_apart (t : FingerTrail) (cs : List Call)
    (hmono : (cs.map Call.millis).Pairwise (· ≤ ·)) (i j : ℕ) (hij : i < j) (a b : Call)
    (ha : cs[i]? = some a) (hb : cs[j]? = some b)
    (hai : (t.appended cs)[i]? = some true) (hbj : (t.appended cs)[j]? = some true) :
    b.millis - a.millis ≥ t.debounceDelay := by
  induction cs generalizing t i j with
  | nil => simp at ha
  | cons c cs ih =>
    rw [List.map_cons, List.pairwise_cons] at hmono
    cases j with
    | zero => omega
    | succ j =>
      simp only [FingerTrail.appended, List.getElem?_cons_succ] at hbj hb
      cases i with
      | zero =>
        simp only [FingerTrail.appended, List.getElem?_cons_zero, Option.some.injEq] at hai ha
        subst ha
        have h1 := FingerTrail.appended_after_last cs (t.step c) hmono.2 j b hbj hb
        rw [t.step_debounceDelay c] at h1
        cases c with
        | update p m =>
          simp only [FingerTrail.step, t.update_lastRecordedTime p m, if_pos hai] at h1
          exact h1
        | draw m f => simp at hai
      | succ i =>
        simp only [FingerTrail.appended, List.getElem?_cons_succ] at hai ha
        have := ih (t.step c) hmono.2 i j (by omega) ha hb hai hbj
        rw [t.step_debounceDelay c] at this
        exact this

/-- The witness of C4: pushes at 100 and 250, with a `draw` in between. -/
theorem appends_debounceDelay_apart_witness :
    (Call.update ⟨7, 7⟩ 250).millis - (Call.update ⟨0, 0⟩ 100).millis
      ≥ (FingerTrail.constructor 3 ⟨0, 255, 0⟩ 100 3000).debounceDelay :=
  appends_debounceDelay_apart (FingerTrail.constructor 3 ⟨0, 255, 0⟩ 100 3000)
    [Call.update ⟨0, 0⟩ 100, Call.draw 150 5, Call.update ⟨7, 7⟩ 250]
    (by norm_num [Call.millis]) 0 2 (by decide) _ _ rfl rfl
    (by norm_num [FingerTrail.appended, FingerTrail.records, FingerTrail.constructor])
    (by norm_num [FingerTrail.appended, FingerTrail.records, FingerTrail.constructor, FingerTrail.step,
      FingerTrail.update, FingerTrail.draw, FingerTrail.decay, FingerTrail.smoothed])

/-- While every clock reading stays within `debounceDelay` of `lastRecordedTime`,
no `update` pushes. -/
theorem FingerTrail.appended_all_false (us : List (Vec × ℚ)) :
    ∀ t : FingerTrail, (∀ u ∈ us, u.2 - t.lastRecordedTime < t.debounceDelay) →
      ∀ b ∈ t.appended (us.map fun u => Call.update u.1 u.2), b = false := by
  induction us with
  | nil => intro t _ b hb; simp [FingerTrail.appended] at hb
  | cons u us ih =>
    intro t h b hb
    have hu : t.records u.2 = false := by
      have := h u (List.mem_cons_self _ _)
      simp only [FingerTrail.records, decide_eq_false_iff_not, ge_iff_le, not_le]
      exact this
    simp only [List.map_cons, FingerTrail.appended, List.mem_cons] at hb
    rcases hb with hb | hb
    · rw [hb, hu]
    · refine ih (t.step (Call.update u.1 u.2)) ?_ b hb
      intro v hv
      rw [t.step_debounceDelay]
      simp only [FingerTrail.step, t.update_lastRecordedTime, hu]
      exact h v (List.mem_cons_of_mem _ hv)

/-- Updates whose clock readings all lie within a window shorter than
`debounceDelay`: at most one pushes, and it is the first one whose clock reading
is at least `debounceDelay` past the initial `lastRecordedTime`. -/
theorem FingerTrail.appended_window (us : List (Vec × ℚ)) :
    ∀ t : FingerTrail, (∀ a ∈ us, ∀ b ∈ us, b.2 - a.2 < t.debounceDelay) →
      (t.appended (us.map fun u => Call.update u.1 u.2)).count true ≤ 1 ∧
      ∀ i : ℕ, (t.appended (us.map fun u => Call.update u.1 u.2))[i]? = some true ↔
        ∃ u, us[i]? = some u ∧ t.debounceDelay ≤ u.2 - t.lastRecordedTime ∧
          ∀ j < i, ∀ v, us[j]? = some v → v.2 - t.lastRecordedTime < t.debounceDelay := by
  induction us with
  | nil => intro t _; simp [FingerTrail.appended]
  | cons u us ih =>
    intro t h
    have hrest : ∀ a ∈ us, ∀ b ∈ us, b.2 - a.2 < t.debounceDelay := fun a ha b hb =>
      h a (List.mem_cons_of_mem _ ha) b (List.mem_cons_of_mem _ hb)
    by_cases hr : t.records u.2 = true
    · -- the head pushes; nothing after it does
      have hlast : (t.step (Call.update u.1 u.2)).lastRecordedTime = u.2 := by
        simp only [FingerTrail.step, t.update_lastRecordedTime, if_pos hr]
      have hall := FingerTrail.appended_all_false us (t.step (Call.update u.1 u.2)) (by
        intro v hv
        rw [t.step_debounceDelay, hlast]
        exact h u (List.mem_cons_self _ _) v (List.mem_cons_of_mem _ hv))
      have hu := (t.records_iff u.2).1 hr
      constructor
      · simp only [List.map_cons, FingerTrail.appended, hr, List.count_cons_self]
        have : List.count true ((t.step (Call.update u.1 u.2)).appended
            (us.map fun u => Call.update u.1 u.2)) = 0 := by
          rw [List.count_eq_zero]
          intro hmem
          exact absurd (hall true hmem) (by decide)
        omega
      · intro i
        cases i with
        | zero =>
          simp only [List.map_cons, FingerTrail.appended, hr, List.getElem?_cons_zero, true_iff]
          exact ⟨u, rfl, hu, fun j hj => absurd hj (Nat.not_lt_zero j)⟩
        | succ i =>
          simp only [List.map_cons, FingerTrail.appended, List.getElem?_cons_succ]
          constructor
          · intro hi
            exact absurd (hall true (List.getElem?_mem hi)) (by decide)
          · rintro ⟨v, _, _, hv⟩
            have := hv 0 (Nat.succ_pos i) u (List.getElem?_cons_zero)
            linarith
    · -- the head does not push; the state keeps its `lastRecordedTime`
      have hr' : t.records u.2 = false := by simpa using hr
      have hu : u.2 - t.lastRecordedTime < t.debounceDelay := by
        have := (t.records_iff u.2).not.1 hr
        linarith
      have hlast : (t.step (Call.update u.1 u.2)).lastRecordedTime = t.lastRecordedTime := by
        simp only [FingerTrail.step, t.update_lastRecordedTime, hr']
        rfl
      have hih := ih (t.step (Call.update u.1 u.2)) (by rw [t.step_debounceDelay]; exact hrest)
      rw [t.step_debounceDelay, hlast] at hih
      constructor
      · simp only [List.map_cons, FingerTrail.appended, hr']
        rw [List.count_cons_of_ne (by decide)]
        exact hih.1
      · intro i
        cases i with
        | zero =>
          simp only [List.map_cons, FingerTrail.appended, hr', List.getElem?_cons_zero]
          constructor
          · intro hf; simp at hf
          · rintro ⟨v, hv, hd, _⟩
            simp only [Option.some.injEq] at hv
            subst hv
            linarith
        | succ i =>
          simp only [List.map_cons, FingerTrail.appended, List.getElem?_cons_succ]
          rw [hih.2 i]
          constructor
          · rintro ⟨v, hv, hd, hj⟩
            refine ⟨v, hv, hd, fun j hji w hw => ?_⟩
            cases j with
            | zero =>
              simp only [List.getElem?_cons_zero, Option.some.injEq] at hw
              subst hw
              exact hu
            | succ j =>
              simp only [List.getElem?_cons_succ] at hw
              exact hj j (by omega) w hw
          · rintro ⟨v, hv, hd, hj⟩
            exact ⟨v, hv, hd, fun j hji w hw => hj (j + 1) (by omega) w (by simpa using hw)⟩

/-- In a strictly increasing list every entry is at most the last one. -/
theorem le_getLast_of_increasing (l : List ℚ) (hne : l ≠ []) (hinc : l.Pairwise (· < ·)) :
    ∀ a ∈ l, a ≤ l.getLast hne := by
  induction l with
  | nil => exact absurd rfl hne
  | cons x xs ih =>
    intro a ha
    rw [List.pairwise_cons] at hinc
    by_cases hxs : xs = []
    · subst hxs
      simp only [List.mem_singleton] at ha
      simp [ha]
    · rw [List.getLast_cons hxs]
      rcases List.mem_cons.1 ha with rfl | ha
      · exact le_of_lt (hinc.1 _ (List.getLast_mem hxs))
      · exact ih hxs hinc.2 a ha

/-- C3 (as stated, refuted): on a fresh trail with `debounceDelay = 100`, the
updates at times 0 < 50 (window 50 < 100) push nothing at all, and of the
updates at times 50 < 120 (window 70 < 100) the second pushes, not the first. -/
theorem debounce_window_counterexample :
    (FingerTrail.constructor 3 ⟨0, 255, 0⟩ 100 3000).appended
      [Call.update ⟨1, 2⟩ 0, Call.update ⟨3, 4⟩ 50] = [false, false] ∧
    ((FingerTrail.constructor 3 ⟨0, 255, 0⟩ 100 3000).run
      [Call.update ⟨1, 2⟩ 0, Call.update ⟨3, 4⟩ 50]).points = [] ∧
    (FingerTrail.constructor 3 ⟨0, 255, 0⟩ 100 3000).appended
      [Call.update ⟨1, 2⟩ 50, Call.update ⟨3, 4⟩ 120] = [false, true] := by
  refine ⟨?_, ?_, ?_⟩ <;>
    norm_num [FingerTrail.appended, FingerTrail.records, FingerTrail.constructor, FingerTrail.step,
      FingerTrail.update, FingerTrail.smoothed, FingerTrail.run]

/-- C3 (amended): for a freshly constructed trail and every sequence of `update`
calls at times `t0 < t1 < ... < tn` with `tn - t0 < debounceDelay`, at most one
call pushes a history entry, and call `i` pushes exactly when its time is
`≥ debounceDelay` and every earlier call's time is `< debounceDelay` (so the
first call pushes only when `t0 ≥ debounceDelay`, and no call pushes when all
times are below `debounceDelay`). -/
theorem debounce_window_at_most_one_append (maxLength : ℕ) (col : Color)
    (debounceDelay idleThreshold : ℚ) (u0 : Vec × ℚ) (rest : List (Vec × ℚ))
    (hinc : (u0.2 :: rest.map Prod.snd).Pairwise (· < ·))
    (hwin : (u0.2 :: rest.map Prod.snd).getLast (List.cons_ne_nil _ _) - u0.2 < debounceDelay) :
    ((FingerTrail.constructor maxLength col debounceDelay idleThreshold).appended
      ((u0 :: rest).map fun u => Call.update u.1 u.2)).count true ≤ 1 ∧
    ∀ i : ℕ, ((FingerTrail.constructor maxLength col debounceDelay idleThreshold).appended
        ((u0 :: rest).map fun u => Call.update u.1 u.2))[i]? = some true ↔
      ∃ u, (u0 :: rest)[i]? = some u ∧ debounceDelay ≤ u.2 ∧
        ∀ j < i, ∀ v, (u0 :: rest)[j]? = some v → v.2 < debounceDelay := by
  have hlast := le_getLast_of_increasing _ (List.cons_ne_nil _ _) hinc
  have hfirst : ∀ a ∈ u0 :: rest, u0.2 ≤ a.2 := by
    intro a ha
    rcases List.mem_cons.1 ha with rfl | ha
    · exact le_refl _
    · exact le_of_lt ((List.pairwise_cons.1 hinc).1 _ (List.mem_map_of_mem _ ha))
  have hpair : ∀ a ∈ u0 :: rest, ∀ b ∈ u0 :: rest,
      b.2 - a.2 < (FingerTrail.constructor maxLength col debounceDelay idleThreshold).debounceDelay := by
    intro a ha b hb
    have h1 := hfirst a ha
    have h2 : b.2 ≤ _ := hlast b.2 (by
      have := List.mem_map_of_mem Prod.snd hb
      simpa using this)
    show b.2 - a.2 < debounceDelay
    linarith
  have h := FingerTrail.appended_window (u0 :: rest)
    (FingerTrail.constructor maxLength col debounceDelay idleThreshold) hpair
  simpa [FingerTrail.constructor] using h

/-- The witness of C3 (amended): updates at 150, 170, 190 with `debounceDelay = 100`. -/
theorem debounce_window_at_most_one_append_witness :
    ((FingerTrail.constructor 3 ⟨0, 255, 0⟩ 100 3000).appended
      (([(⟨1, 2⟩, 150), (⟨3, 4⟩, 170), (⟨5, 6⟩, 190)] : List (Vec × ℚ)).map
        fun u => Call.update u.1 u.2)).count true ≤ 1 ∧
    ∀ i : ℕ, ((FingerTrail.constructor 3 ⟨0, 255, 0⟩ 100 3000).appended
        (([(⟨1, 2⟩, 150), (⟨3, 4⟩, 170), (⟨5, 6⟩, 190)] : List (Vec × ℚ)).map
          fun u => Call.update u.1 u.2))[i]? = some true ↔
      ∃ u, ([(⟨1, 2⟩, 150), (⟨3, 4⟩, 170), (⟨5, 6⟩, 190)] : List (Vec × ℚ))[i]? = some u ∧
        (100 : ℚ) ≤ u.2 ∧
        ∀ j < i, ∀ v, ([(⟨1, 2⟩, 150), (⟨3, 4⟩, 170), (⟨5, 6⟩, 190)] : List (Vec × ℚ))[j]?
          = some v → v.2 < 100 :=
  debounce_window_at_most_one_append 3 ⟨0, 255, 0⟩ 100 3000 (⟨1, 2⟩, 150)
    [(⟨3, 4⟩, 170), (⟨5, 6⟩, 190)] (by norm_num) (by norm_num)

/-! ## Smoothing -/

theorem FingerTrail.update_current (t : FingerTrail) (r : Vec) (m : ℚ) :
    (t.update r m).current = some (t.smoothed r) := by
  unfold FingerTrail.update
  dsimp only
  split_ifs <;> rfl

theorem FingerTrail.update_smoothingFactor (t : FingerTrail) (r : Vec) (m : ℚ) :
    (t.update r m).smoothingFactor = t.smoothingFactor := by
  unfold FingerTrail.update
  dsimp only
  split_ifs <;> rfl

/-- Repeated updates with one raw point: the offset from the raw point is
multiplied by `1 - smoothingFactor` at each call. -/
theorem FingerTrail.run_updates_current (r : Vec) (ms : List ℚ) :
    ∀ (t : FingerTrail) (c : Vec), t.current = some c →
      ∃ cn : Vec, (t.run (ms.map (Call.update r))).current = some cn ∧
        cn.x - r.x = (1 - t.smoothingFactor) ^ ms.length * (c.x - r.x) ∧
        cn.y - r.y = (1 - t.smoothingFactor) ^ ms.length * (c.y - r.y) := by
  induction ms with
  | nil => intro t c hc; exact ⟨c, hc, by simp, by simp⟩
  | cons m ms ih =>
    intro t c hc
    have h1 : (t.update r m).current = some (t.smoothed r) := t.update_current r m
    obtain ⟨cn, hcn, hx, hy⟩ := ih (t.update r m) (t.smoothed r) h1
    refine ⟨cn, hcn, ?_, ?_⟩
    · rw [hx, t.update_smoothingFactor r m]
      simp only [FingerTrail.smoothed, hc, lerp, List.length_cons]
      ring
    · rw [hy, t.update_smoothingFactor r m]
      simp only [FingerTrail.smoothed, hc, lerp, List.length_cons]
      ring

/-- C5: over the rationals with `smoothingFactor = 3/10`, for every trail whose
`current` is set to `c` and every raw point `r`, one `update(r)` gives `current'`
with `current' - r = (1 - smoothingFactor) * (c - r)` in `x` and in `y`;
`current'` lies on the segment from `c` to `r` (no overshoot); the Euclidean
distance to `r` is multiplied by exactly `1 - smoothingFactor`; and after `n`
updates with the same `r` the offset from `r` is `(1 - smoothingFactor) ^ n` times
the initial one. -/
theorem smoothing_contracts (t : FingerTrail) (c r : Vec) (m : ℚ)
    (hs : t.smoothingFactor = 3 / 10) (hc : t.current = some c) :
    ∃ c' : Vec, (t.update r m).current = some c' ∧
      c'.x - r.x = (1 - t.smoothingFactor) * (c.x - r.x) ∧
      c'.y - r.y = (1 - t.smoothingFactor) * (c.y - r.y) ∧
      (∃ k : ℚ, 0 ≤ k ∧ k ≤ 1 ∧ c'.x = c.x + k * (r.x - c.x) ∧ c'.y = c.y + k * (r.y - c.y)) ∧
      Real.sqrt (((c'.x - r.x : ℚ) : ℝ) ^ 2 + ((c'.y - r.y : ℚ) : ℝ) ^ 2)
        = ((1 - t.smoothingFactor : ℚ) : ℝ)
          * Real.sqrt (((c.x - r.x : ℚ) : ℝ) ^ 2 + ((c.y - r.y : ℚ) : ℝ) ^ 2) ∧
      ∀ ms : List ℚ, ∃ cn : Vec, (t.run (ms.map (Call.update r))).current = some cn ∧
        cn.x - r.x = (1 - t.smoothingFactor) ^ ms.length * (c.x - r.x) ∧
        cn.y - r.y = (1 - t.smoothingFactor) ^ ms.length * (c.y - r.y) := by
  have hx : (t.smoothed r).x - r.x = (1 - t.smoothingFactor) * (c.x - r.x) := by
    simp only [FingerTrail.smoothed, hc, lerp]; ring
  have hy : (t.smoothed r).y - r.y = (1 - t.smoothingFactor) * (c.y - r.y) := by
    simp only [FingerTrail.smoothed, hc, lerp]; ring
  refine ⟨t.smoothed r, t.update_current r m, hx, hy, ?_, ?_, ?_⟩
  · refine ⟨t.smoothingFactor, by rw [hs]; norm_num, by rw [hs]; norm_num, ?_, ?_⟩
    · simp only [FingerTrail.smoothed, hc, lerp]; ring
    · simp only [FingerTrail.smoothed, hc, lerp]; ring
  · rw [hx, hy]
    have h0 : (0 : ℝ) ≤ ((1 - t.smoothingFactor : ℚ) : ℝ) := by
      rw [hs]; norm_num
    have hsq : (((1 - t.smoothingFactor) * (c.x - r.x) : ℚ) : ℝ) ^ 2
        + (((1 - t.smoothingFactor) * (c.y - r.y) : ℚ) : ℝ) ^ 2
        = ((1 - t.smoothingFactor : ℚ) : ℝ) ^ 2
          * (((c.x - r.x : ℚ) : ℝ) ^ 2 + ((c.y - r.y : ℚ) : ℝ) ^ 2) := by
      push_cast; ring
    rw [hsq, Real.sqrt_mul (sq_nonneg _), Real.sqrt_sq h0]
  · exact fun ms => FingerTrail.run_updates_current r ms t c hc

/-- The witness of C5: a trail at `(0, 0)` updated toward `(10, 20)`. -/
theorem smoothing_contracts_witness :
    ∃ c' : Vec,
      (({ FingerTrail.constructor 3 ⟨0, 255, 0⟩ 100 3000 with current := some ⟨0, 0⟩ } : FingerTrail).update
        ⟨10, 20⟩ 50).current = some c' ∧ c'.x = 3 ∧ c'.y = 6 := by
  obtain ⟨c', h1, hx, hy, _⟩ := smoothing_contracts
    ({ FingerTrail.constructor 3 ⟨0, 255, 0⟩ 100 3000 with current := some ⟨0, 0⟩ } : FingerTrail)
    ⟨0, 0⟩ ⟨10, 20⟩ 50 rfl rfl
  refine ⟨c', h1, ?_, ?_⟩
  · have : (FingerTrail.constructor 3 ⟨0, 255, 0⟩ 100 3000).smoothingFactor = 3 / 10 := rfl
    simp only [this] at hx
    linarith
  · have : (FingerTrail.constructor 3 ⟨0, 255, 0⟩ 100 3000).smoothingFactor = 3 / 10 := rfl
    simp only [this] at hy
    linarith

/-! ## Idle decay -/

theorem FingerTrail.decay_points_idle (t : FingerTrail) (m : ℚ) (f : ℕ)
    (h : m - t.lastRecordedTime > t.idleThreshold) :
    (t.decay m f).points = t.points.drop (if f % 5 = 0 then 1 else 0) := by
  unfold FingerTrail.decay
  by_cases hp : t.points.length > 0
  · rw [if_pos ⟨h, hp⟩]
    split_ifs <;> simp
  · rw [if_neg (fun hh => hp hh.2)]
    have : t.points = [] := List.length_eq_zero.1 (by omega)
    simp [this]

theorem FingerTrail.decay_idleThreshold (t : FingerTrail) (m : ℚ) (f : ℕ) :
    (t.decay m f).idleThreshold = t.idleThreshold := by
  unfold FingerTrail.decay
  split_ifs <;> rfl

/-- Idle renders drop one oldest point per frame counter that is a multiple of 5. -/
theorem FingerTrail.run_renders_points (ms : List ℚ) :
    ∀ (t : FingerTrail) (f : ℕ), (∀ m ∈ ms, m - t.lastRecordedTime > t.idleThreshold) →
      (t.run (renders f ms)).points = t.points.drop (decayFrames f ms.length) := by
  induction ms with
  | nil => intro t f _; simp [renders, FingerTrail.run, decayFrames]
  | cons m ms ih =>
    intro t f h
    have hm := h m (List.mem_cons_self _ _)
    have hstep : t.run (renders f (m :: ms)) = (t.decay m f).run (renders (f + 1) ms) := rfl
    rw [hstep, ih (t.decay m f) (f + 1) (by
      intro m' hm'
      have hl : (t.decay m f).lastRecordedTime = t.lastRecordedTime :=
        t.draw_lastRecordedTime m f
      rw [hl, t.decay_idleThreshold m f]
      exact h m' (List.mem_cons_of_mem _ hm'))]
    rw [t.decay_points_idle m f hm, List.drop_drop]
    simp only [List.length_cons, decayFrames]

theorem decayFrames_add (a : ℕ) : ∀ (f b : ℕ),
    decayFrames f (a + b) = decayFrames f a + decayFrames (f + a) b := by
  induction a with
  | zero => intro f b; simp [decayFrames]
  | succ a ih =>
    intro f b
    have : a + 1 + b = (a + b) + 1 := by omega
    rw [this]
    simp only [decayFrames]
    rw [ih (f + 1) b]
    have h2 : f + 1 + a = f + (a + 1) := by omega
    rw [h2]
    omega

theorem decayFrames_five (f : ℕ) : decayFrames f 5 = 1 := by
  simp only [decayFrames]
  split_ifs <;> omega

theorem decayFrames_five_mul (k : ℕ) : ∀ f : ℕ, decayFrames f (5 * k) = k := by
  induction k with
  | zero => intro f; simp [decayFrames]
  | succ k ih =>
    intro f
    have : 5 * (k + 1) = 5 + 5 * k := by omega
    rw [this, decayFrames_add, decayFrames_five, ih]
    omega

/-- C6: for a trail with no update in between and
`now - lastRecordedTime > idleThreshold` at every render, `draw` called with the
frame counter going up by one per call: every block of 5 consecutive renders
shortens the history by exactly 1 while it is non-empty (and leaves it empty
otherwise); after `5 * k` renders the `k` oldest points are gone; and from
`5 * points.length` renders on the history is empty and stays empty. -/
theorem idle_decay_rate (t : FingerTrail) (f : ℕ) (ms : List ℚ)
    (hidle : ∀ m ∈ ms, m - t.lastRecordedTime > t.idleThreshold) :
    (ms.length = 5 → (t.run (renders f ms)).points.length = t.points.length - 1) ∧
    (∀ k : ℕ, ms.length = 5 * k → (t.run (renders f ms)).points = t.points.drop k) ∧
    (5 * t.points.length ≤ ms.length → (t.run (renders f ms)).points = []) := by
  have h := FingerTrail.run_renders_points ms t f hidle
  refine ⟨?_, ?_, ?_⟩
  · intro h5
    rw [h, h5, decayFrames_five, List.length_drop]
  · intro k hk
    rw [h, hk, decayFrames_five_mul]
  · intro hle
    rw [h, List.drop_eq_nil_iff]
    obtain ⟨r, hr⟩ := Nat.exists_eq_add_of_le hle
    rw [hr, decayFrames_add, decayFrames_five_mul]
    omega

/-- The witness of C6: a trail of three points, idle since time 0, rendered at
frames 3 to 7. -/
theorem idle_decay_rate_witness :
    (({ FingerTrail.constructor 3 ⟨0, 255, 0⟩ 100 3000 with
        points := [⟨0, 0⟩, ⟨1, 1⟩, ⟨2, 2⟩] } : FingerTrail).run
      (renders 3 [4000, 4016, 4032, 4048, 4064])).points.length = 3 - 1 :=
  (idle_decay_rate
    ({ FingerTrail.constructor 3 ⟨0, 255, 0⟩ 100 3000 with
        points := [⟨0, 0⟩, ⟨1, 1⟩, ⟨2, 2⟩] } : FingerTrail)
    3 [4000, 4016, 4032, 4048, 4064]
    (by
      intro m hm
      simp only [List.mem_cons, List.mem_singleton, List.not_mem_nil, or_false] at hm
      rcases hm with rfl | rfl | rfl | rfl | rfl <;> norm_num [FingerTrail.constructor])).1 rfl

/-! ## Drawing -/

theorem FingerTrail.bezierLoop_eq (points : List Vec) : ∀ (k i : ℕ),
    points.length - 1 - i = k →
      FingerTrail.bezierLoop points i = (List.range' i k).map (FingerTrail.bezierSegment points) := by
  intro k
  induction k with
  | zero =>
    intro i h
    rw [FingerTrail.bezierLoop, if_neg (by omega)]
    rfl
  | succ k ih =>
    intro i h
    rw [FingerTrail.bezierLoop, if_pos (by omega), ih (i + 1) (by omega), List.range'_succ]
    rfl

theorem FingerTrail.decay_col (t : FingerTrail) (m : ℚ) (f : ℕ) :
    (t.decay m f).col = t.col := by
  unfold FingerTrail.decay
  split_ifs <;> rfl

/-- What `draw` emits on a history of at least three points. -/
theorem FingerTrail.draw_curve (t : FingerTrail) (m : ℚ) (f : ℕ)
    (h3 : 3 ≤ (t.draw m f).1.points.length) :
    (t.draw m f).2 = [DrawCmd.stroke t.col, DrawCmd.strokeWeight 4, DrawCmd.noFill] ++
      (List.range ((t.draw m f).1.points.length - 1)).map
        (FingerTrail.bezierSegment (t.draw m f).1.points) := by
  have h3' : 3 ≤ (t.decay m f).points.length := h3
  show FingerTrail.strokes (t.decay m f).col (t.decay m f).points = _
  unfold FingerTrail.strokes
  rw [if_neg (by omega), if_neg (by omega), t.decay_col,
    FingerTrail.bezierLoop_eq _ ((t.decay m f).points.length - 1) 0 (by omega),
    List.range_eq_range']
  rfl

/-- C7: for every render call, with `h` the history after that call's decay
step: if `h` has 0 or 1 points nothing at all is emitted; if `h` is exactly
`[a, b]` the output is the three style calls and exactly one `line` from `a` to
`b`, and no curve; if `h` has `n ≥ 3` points the output is the three style
calls followed by exactly `n - 1` calls, every one a `bezier`, and no line. -/
theorem draw_output_by_history_size (t : FingerTrail) (m : ℚ) (f : ℕ) :
    ((t.draw m f).1.points.length ≤ 1 → (t.draw m f).2 = []) ∧
    (∀ a b : Vec, (t.draw m f).1.points = [a, b] →
      (t.draw m f).2 = [DrawCmd.stroke t.col, DrawCmd.strokeWeight 4, DrawCmd.noFill,
        DrawCmd.line a.x a.y b.x b.y]) ∧
    (3 ≤ (t.draw m f).1.points.length →
      ∃ segs : List DrawCmd,
        (t.draw m f).2 = [DrawCmd.stroke t.col, DrawCmd.strokeWeight 4, DrawCmd.noFill] ++ segs ∧
        segs.length = (t.draw m f).1.points.length - 1 ∧
        ∀ s ∈ segs, ∃ x1 y1 x2 y2 x3 y3 x4 y4 : ℚ,
          s = DrawCmd.bezier x1 y1 x2 y2 x3 y3 x4 y4) := by
  refine ⟨?_, ?_, ?_⟩
  · intro h
    have h' : (t.decay m f).points.length ≤ 1 := h
    show FingerTrail.strokes (t.decay m f).col (t.decay m f).points = _
    unfold FingerTrail.strokes
    rw [if_pos (by omega)]
  · intro a b h
    have h' : (t.decay m f).points = [a, b] := h
    show FingerTrail.strokes (t.decay m f).col (t.decay m f).points = _
    rw [h', t.decay_col]
    simp [FingerTrail.strokes]
  · intro h3
    refine ⟨_, t.draw_curve m f h3, by simp, ?_⟩
    intro s hs
    obtain ⟨i, _, rfl⟩ := List.mem_map.1 hs
    exact ⟨_, _, _, _, _, _, _, _, rfl⟩

/-- C8: for every render whose history (after the decay step) has `n ≥ 3`
points, the output is the style calls followed by `n - 1` segments, and for
every `i < n - 1` the `i`-th segment, in this order, is the cubic Bezier
`(p1, cp1, cp2, p2)` with `p1 = points[i]`, `p2 = points[i+1]`,
`p0 = points[i-1]` (`p1` when `i = 0`), `p3 = points[i+2]` (`p2` when
`i + 2 ≥ n`), `cp1 = p1 + (p2 - p0)/6` and `cp2 = p2 - (p3 - p1)/6`. -/
theorem bezier_control_points (t : FingerTrail) (m : ℚ) (f : ℕ)
    (h3 : 3 ≤ (t.draw m f).1.points.length) :
    ∃ segs : List DrawCmd,
      (t.draw m f).2 = [DrawCmd.stroke t.col, DrawCmd.strokeWeight 4, DrawCmd.noFill] ++ segs ∧
      segs.length = (t.draw m f).1.points.length - 1 ∧
      ∀ (i : ℕ) (p0 p1 p2 p3 : Vec), i < (t.draw m f).1.points.length - 1 →
        (t.draw m f).1.points[i]? = some p1 →
        (t.draw m f).1.points[i + 1]? = some p2 →
        (if i = 0 then some p1 else (t.draw m f).1.points[i - 1]?) = some p0 →
        (if i + 2 < (t.draw m f).1.points.length then (t.draw m f).1.points[i + 2]?
          else some p2) = some p3 →
        segs[i]? = some (DrawCmd.bezier p1.x p1.y
          (p1.x + (p2.x - p0.x) / 6) (p1.y + (p2.y - p0.y) / 6)
          (p2.x - (p3.x - p1.x) / 6) (p2.y - (p3.y - p1.y) / 6) p2.x p2.y) := by
  refine ⟨_, t.draw_curve m f h3, by simp, ?_⟩
  intro i p0 p1 p2 p3 hi h1 h2 h0 h3'
  rw [List.getElem?_map, List.getElem?_range hi]
  simp only [Option.map_some', Option.some.injEq, FingerTrail.bezierSegment,
    List.getD_eq_getElem?_getD, h1, h2, Option.getD_some, Vec.add, Vec.sub, Vec.mult]
  have e0 : (if i = 0 then p1 else ((t.draw m f).1.points[i - 1]?).getD ⟨0, 0⟩) = p0 := by
    split_ifs at h0 ⊢ with hi0
    · exact Option.some.inj h0
    · rw [h0]; rfl
  have e3 : (if i + 2 < (t.draw m f).1.points.length
      then ((t.draw m f).1.points[i + 2]?).getD ⟨0, 0⟩ else p2) = p3 := by
    split_ifs at h3' ⊢ with hi3
    · rw [h3']; rfl
    · exact Option.some.inj h3'
  rw [e0, e3]
  congr 1 <;> ring

/-- The witness of C8: three points, not idle. -/
theorem bezier_control_points_witness :
    ∃ segs : List DrawCmd,
      (({ FingerTrail.constructor 3 ⟨0, 255, 0⟩ 100 3000 with
          points := [⟨0, 0⟩, ⟨6, 0⟩, ⟨12, 6⟩] } : FingerTrail).draw 50 1).2
        = [DrawCmd.stroke ⟨0, 255, 0⟩, DrawCmd.strokeWeight 4, DrawCmd.noFill] ++ segs ∧
      segs[0]? = some (DrawCmd.bezier 0 0 (0 + (6 - 0) / 6) (0 + (0 - 0) / 6)
        (6 - (12 - 0) / 6) (0 - (6 - 0) / 6) 6 0) := by
  have hp : (({ FingerTrail.constructor 3 ⟨0, 255, 0⟩ 100 3000 with
      points := [⟨0, 0⟩, ⟨6, 0⟩, ⟨12, 6⟩] } : FingerTrail).draw 50 1).1.points
      = [⟨0, 0⟩, ⟨6, 0⟩, ⟨12, 6⟩] := by
    norm_num [FingerTrail.draw, FingerTrail.decay, FingerTrail.constructor]
  obtain ⟨segs, h1, _, h2⟩ := bezier_control_points
    ({ FingerTrail.constructor 3 ⟨0, 255, 0⟩ 100 3000 with
      points := [⟨0, 0⟩, ⟨6, 0⟩, ⟨12, 6⟩] } : FingerTrail) 50 1 (by rw [hp]; decide)
  refine ⟨segs, h1, ?_⟩
  exact h2 0 ⟨0, 0⟩ ⟨0, 0⟩ ⟨6, 0⟩ ⟨12, 6⟩ (by rw [hp]; decide) (by rw [hp]; rfl) (by rw [hp]; rfl)
    (by simp) (by rw [hp]; rfl)

/-! ## The proximity overlay -/

/-- The exact test on squares is the comparison of the Euclidean distance with `r`. -/
theorem distLt_iff_sqrt (x1 y1 x2 y2 r : ℚ) :
    distLt x1 y1 x2 y2 r ↔
      Real.sqrt (((x2 - x1 : ℚ) : ℝ) ^ 2 + ((y2 - y1 : ℚ) : ℝ) ^ 2) < (r : ℝ) := by
  unfold distLt
  constructor
  · rintro ⟨hr, h⟩
    have hr' : (0 : ℝ) < (r : ℝ) := by exact_mod_cast hr
    rw [Real.sqrt_lt' hr']
    exact_mod_cast h
  · intro h
    have hr' : (0 : ℝ) < (r : ℝ) := lt_of_le_of_lt (Real.sqrt_nonneg _) h
    refine ⟨by exact_mod_cast hr', ?_⟩
    rw [Real.sqrt_lt' hr'] at h
    exact_mod_cast h

theorem FingerTrail.draw_current (t : FingerTrail) (m : ℚ) (f : ℕ) :
    (t.draw m f).1.current = t.current := by
  show (t.decay m f).current = _
  unfold FingerTrail.decay
  split_ifs <;> rfl

/-- A trail never emits an `image` call. -/
theorem FingerTrail.strokes_no_image (col : Color) (points : List Vec) (x y : ℚ) :
    DrawCmd.image x y ∉ FingerTrail.strokes col points := by
  unfold FingerTrail.strokes
  split_ifs with h1 h2
  · simp
  · simp
  · rw [FingerTrail.bezierLoop_eq points (points.length - 1) 0 (by omega)]
    simp [FingerTrail.bezierSegment]

/-- The loop over `hands` completes when every accepted detection has a keypoint 8. -/
theorem Sketch.processHands_ok (hands : List Hand) (m : ℚ) :
    ∀ s : Sketch, (∀ h ∈ hands, h.confidence > 1 / 10 → 8 < h.keypoints.length) →
      ∃ s1 : Sketch, Sketch.processHands s hands m = Except.ok s1 := by
  induction hands with
  | nil => intro s _; exact ⟨s, rfl⟩
  | cons h hs ih =>
    intro s hk
    have hh := hk h (List.mem_cons_self _ _)
    have hrest : ∀ h' ∈ hs, h'.confidence > 1 / 10 → 8 < h'.keypoints.length :=
      fun h' hm => hk h' (List.mem_cons_of_mem _ hm)
    have hstep : ∃ s1 : Sketch, Sketch.processHand s h m = Except.ok s1 := by
      unfold Sketch.processHand
      by_cases hc : h.confidence > 1 / 10
      · rw [if_pos hc]
        obtain ⟨kp, hkp⟩ : ∃ kp, h.keypoints[8]? = some kp :=
          ⟨h.keypoints.get ⟨8, hh hc⟩, List.getElem?_eq_getElem (hh hc)⟩
        rw [hkp]
        dsimp only
        split_ifs
        · exact ⟨_, rfl⟩
        · exact ⟨_, rfl⟩
      · rw [if_neg hc]
        exact ⟨s, rfl⟩
    obtain ⟨s1, hs1⟩ := hstep
    obtain ⟨s2, hs2⟩ := ih s1 hrest
    refine ⟨s2, ?_⟩
    rw [Sketch.processHands, hs1]
    exact hs2

/-- The `image` call is made exactly when the easter-egg test passes. -/
theorem Sketch.easterEgg_iff (cv : Canvas) (s : Sketch) :
    (∃ x y : ℚ, DrawCmd.image x y ∈ Sketch.easterEgg cv s) ↔
      ∃ l r : Vec, s.fingerTrailLeft.current = some l ∧ s.fingerTrailRight.current = some r ∧
        distLt l.x l.y r.x r.y easterEggThreshold := by
  unfold Sketch.easterEgg
  cases hl : s.fingerTrailLeft.current with
  | none => simp
  | some l =>
    cases hr : s.fingerTrailRight.current with
    | none => simp
    | some r =>
      by_cases hd : distLt l.x l.y r.x r.y easterEggThreshold
      · simp [hd]
      · simp [hd]

/-- The frame completes when every accepted detection has a keypoint 8, and its
only `image` call, if any, is the one of the easter-egg check. -/
theorem Sketch.draw_ok (cv : Canvas) (s : Sketch) (hands : List Hand) (m : ℚ) (f : ℕ)
    (hkp : ∀ h ∈ hands, h.confidence > 1 / 10 → 8 < h.keypoints.length) :
    ∃ (s2 : Sketch) (out : List DrawCmd),
      Sketch.draw cv s hands m f = Except.ok (s2, out) ∧
      ∀ x y : ℚ, DrawCmd.image x y ∈ out ↔ DrawCmd.image x y ∈ Sketch.easterEgg cv s2 := by
  obtain ⟨s1, hs1⟩ := Sketch.processHands_ok hands m s hkp
  refine ⟨_, _, by rw [Sketch.draw, hs1], ?_⟩
  intro x y
  have hl := FingerTrail.strokes_no_image (s1.fingerTrailLeft.decay m f).col
    (s1.fingerTrailLeft.decay m f).points x y
  have hr := FingerTrail.strokes_no_image (s1.fingerTrailRight.decay m f).col
    (s1.fingerTrailRight.decay m f).points x y
  simp only [List.mem_append, List.mem_singleton, FingerTrail.draw]
  constructor
  · rintro (((h | h) | h) | h)
    · exact absurd h (by simp)
    · exact absurd h hl
    · exact absurd h hr
    · exact h
  · exact fun h => Or.inr h

/-- C9 (amended): in every frame in which every accepted detection (confidence
above `1/10`) has a keypoint 8, so that `draw` reaches the check, the overlay
image is drawn if and only if both trails have a `current` and the Euclidean
distance between the two is strictly below 100, equivalently the squared
distance is below 10000; when drawn it is the centred image. With currents
`(0,0)` and `(50,0)` the overlay is drawn, with `(0,0)` and `(150,0)` it is not. -/
theorem overlay_iff_within_threshold (cv : Canvas) (s : Sketch) (hands : List Hand) (m : ℚ)
    (f : ℕ) (hkp : ∀ h ∈ hands, h.confidence > 1 / 10 → 8 < h.keypoints.length) :
    ∃ (s2 : Sketch) (out : List DrawCmd),
      Sketch.draw cv s hands m f = Except.ok (s2, out) ∧
      ((∃ x y : ℚ, DrawCmd.image x y ∈ out) ↔
        ∃ l r : Vec, s2.fingerTrailLeft.current = some l ∧ s2.fingerTrailRight.current = some r ∧
          Real.sqrt (((r.x - l.x : ℚ) : ℝ) ^ 2 + ((r.y - l.y : ℚ) : ℝ) ^ 2) < 100) ∧
      ((∃ x y : ℚ, DrawCmd.image x y ∈ out) ↔
        ∃ l r : Vec, s2.fingerTrailLeft.current = some l ∧ s2.fingerTrailRight.current = some r ∧
          (r.x - l.x) ^ 2 + (r.y - l.y) ^ 2 < 10000) ∧
      ((∃ x y : ℚ, DrawCmd.image x y ∈ out) →
        DrawCmd.image (cv.width / 2 - cv.imgWidth / 2) (cv.height / 2 - cv.imgHeight / 2) ∈ out) ∧
      (s2.fingerTrailLeft.current = some ⟨0, 0⟩ → s2.fingerTrailRight.current = some ⟨50, 0⟩ →
        ∃ x y : ℚ, DrawCmd.image x y ∈ out) ∧
      (s2.fingerTrailLeft.current = some ⟨0, 0⟩ → s2.fingerTrailRight.current = some ⟨150, 0⟩ →
        ¬ ∃ x y : ℚ, DrawCmd.image x y ∈ out) := by
  obtain ⟨s2, out, hd, himg⟩ := Sketch.draw_ok cv s hands m f hkp
  have hiff : (∃ x y : ℚ, DrawCmd.image x y ∈ out) ↔
      ∃ l r : Vec, s2.fingerTrailLeft.current = some l ∧ s2.fingerTrailRight.current = some r ∧
        distLt l.x l.y r.x r.y easterEggThreshold := by
    rw [← Sketch.easterEgg_iff cv s2]
    simp only [himg]
  have hsq : (∃ x y : ℚ, DrawCmd.image x y ∈ out) ↔
      ∃ l r : Vec, s2.fingerTrailLeft.current = some l ∧ s2.fingerTrailRight.current = some r ∧
        (r.x - l.x) ^ 2 + (r.y - l.y) ^ 2 < 10000 := by
    rw [hiff]
    have e : ∀ l r : Vec, distLt l.x l.y r.x r.y easterEggThreshold ↔
        (r.x - l.x) ^ 2 + (r.y - l.y) ^ 2 < 10000 := by
      intro l r
      unfold distLt easterEggThreshold
      norm_num
    simp only [e]
  refine ⟨s2, out, hd, ?_, hsq, ?_, ?_, ?_⟩
  · rw [hiff]
    have e : ∀ l r : Vec, distLt l.x l.y r.x r.y easterEggThreshold ↔
        Real.sqrt (((r.x - l.x : ℚ) : ℝ) ^ 2 + ((r.y - l.y : ℚ) : ℝ) ^ 2) < 100 := by
      intro l r
      rw [distLt_iff_sqrt]
      unfold easterEggThreshold
      norm_num
    simp only [e]
  · rintro ⟨x, y, hxy⟩
    have h1 := (himg x y).1 hxy
    have h2 : DrawCmd.image (cv.width / 2 - cv.imgWidth / 2) (cv.height / 2 - cv.imgHeight / 2)
        ∈ Sketch.easterEgg cv s2 := by
      unfold Sketch.easterEgg at h1 ⊢
      split at h1
      · split_ifs at h1 with hc
        · rw [if_pos hc]; simp
        · simp at h1
      · simp at h1
    exact (himg _ _).2 h2
  · intro hl hr
    exact hsq.2 ⟨_, _, hl, hr, by norm_num⟩
  · intro hl hr hex
    obtain ⟨l, r, hl', hr', hlt⟩ := hsq.1 hex
    rw [hl] at hl'
    rw [hr] at hr'
    cases hl'
    cases hr'
    norm_num at hlt

/-- The witness of C9: fresh trails, each updated once in the frame, 50 apart. -/
theorem overlay_iff_within_threshold_witness :
    ∃ (s2 : Sketch) (out : List DrawCmd),
      Sketch.draw ⟨640, 480, 100, 100⟩ Sketch.setup
        [⟨9 / 10, "Left", List.replicate 21 ⟨0, 0⟩⟩, ⟨9 / 10, "Right", List.replicate 21 ⟨50, 0⟩⟩]
        200 7 = Except.ok (s2, out) ∧
      s2.fingerTrailLeft.current = some ⟨0, 0⟩ ∧ s2.fingerTrailRight.current = some ⟨50, 0⟩ ∧
      ∃ x y : ℚ, DrawCmd.image x y ∈ out := by
  obtain ⟨s2, out, hd, _, _, _, h50, _⟩ := overlay_iff_within_threshold ⟨640, 480, 100, 100⟩
    Sketch.setup
    [⟨9 / 10, "Left", List.replicate 21 ⟨0, 0⟩⟩, ⟨9 / 10, "Right", List.replicate 21 ⟨50, 0⟩⟩]
    200 7 (by
      intro h hh _
      simp only [List.mem_cons, List.mem_singleton, List.not_mem_nil, or_false] at hh
      rcases hh with rfl | rfl <;> simp)
  have hcur : s2.fingerTrailLeft.current = some ⟨0, 0⟩ ∧
      s2.fingerTrailRight.current = some ⟨50, 0⟩ := by
    have hd' := hd
    simp only [Sketch.draw, Sketch.processHands, Sketch.processHand] at hd'
    have hne : ¬ ("Right" = "Left") := by decide
    norm_num [Sketch.setup, List.replicate, hne] at hd'
    rw [← hd'.1]
    norm_num [FingerTrail.draw, FingerTrail.decay, FingerTrail.update, FingerTrail.constructor,
      FingerTrail.records, FingerTrail.smoothed]
  exact ⟨s2, out, hd, hcur.1, hcur.2, h50 hcur.1 hcur.2⟩

/-- C9 (as stated, refuted): not in every frame. From `setup`, one frame updates
the trails to `(0, 0)` and `(50, 0)`, so both have a `current` and the two are
50 apart, below the threshold; in the next frame an accepted detection with no
keypoint 8 makes `draw` throw before the check is reached, so that frame draws
no overlay (it completes with no output at all). -/
theorem overlay_malformed_frame_counterexample :
    ∃ (s1 : Sketch) (out1 : List DrawCmd),
      Sketch.draw ⟨640, 480, 100, 100⟩ Sketch.setup
        [⟨9 / 10, "Left", List.replicate 21 ⟨0, 0⟩⟩, ⟨9 / 10, "Right", List.replicate 21 ⟨50, 0⟩⟩]
        200 7 = Except.ok (s1, out1) ∧
      s1.fingerTrailLeft.current = some ⟨0, 0⟩ ∧ s1.fingerTrailRight.current = some ⟨50, 0⟩ ∧
      ((50 : ℚ) - 0) ^ 2 + ((0 : ℚ) - 0) ^ 2 < 10000 ∧
      Sketch.draw ⟨640, 480, 100, 100⟩ s1 [⟨9 / 10, "Left", []⟩] 216 8
        = Except.error "TypeError" ∧
      ¬ ∃ (s2 : Sketch) (out : List DrawCmd),
        Sketch.draw ⟨640, 480, 100, 100⟩ s1 [⟨9 / 10, "Left", []⟩] 216 8 = Except.ok (s2, out) ∧
        ∃ x y : ℚ, DrawCmd.image x y ∈ out := by
  obtain ⟨s1, out1, hd, _⟩ := Sketch.draw_ok ⟨640, 480, 100, 100⟩ Sketch.setup
    [⟨9 / 10, "Left", List.replicate 21 ⟨0, 0⟩⟩, ⟨9 / 10, "Right", List.replicate 21 ⟨50, 0⟩⟩]
    200 7 (by
      intro h hh _
      simp only [List.mem_cons, List.mem_singleton, List.not_mem_nil, or_false] at hh
      rcases hh with rfl | rfl <;> simp)
  have hcur : s1.fingerTrailLeft.current = some ⟨0, 0⟩ ∧
      s1.fingerTrailRight.current = some ⟨50, 0⟩ := by
    have hd' := hd
    simp only [Sketch.draw, Sketch.processHands, Sketch.processHand] at hd'
    have hne : ¬ ("Right" = "Left") := by decide
    norm_num [Sketch.setup, List.replicate, hne] at hd'
    rw [← hd'.1]
    norm_num [FingerTrail.draw, FingerTrail.decay, FingerTrail.update, FingerTrail.constructor,
      FingerTrail.records, FingerTrail.smoothed]
  have herr : Sketch.draw ⟨640, 480, 100, 100⟩ s1 [⟨9 / 10, "Left", []⟩] 216 8
      = Except.error "TypeError" := by
    norm_num [Sketch.draw, Sketch.processHands, Sketch.processHand]
  refine ⟨s1, out1, hd, hcur.1, hcur.2, by norm_num, herr, ?_⟩
  rintro ⟨s2, out, hok, _⟩
  rw [herr] at hok
  exact absurd hok (by simp)

/-! ## The confidence filter -/

/-- C10 (as stated, refuted): a detection with confidence exactly `1/10` is not
below the threshold, yet it is discarded: the loop body leaves both trails as
they were, and in particular applies no `update` with its keypoint 8 to either
trail. -/
theorem confidence_boundary_counterexample :
    ¬ ((⟨1 / 10, "Right", List.replicate 21 ⟨5, 5⟩⟩ : Hand).confidence < 1 / 10) ∧
    Sketch.processHand Sketch.setup ⟨1 / 10, "Right", List.replicate 21 ⟨5, 5⟩⟩ 200
      = Except.ok Sketch.setup ∧
    Sketch.processHand Sketch.setup ⟨1 / 10, "Right", List.replicate 21 ⟨5, 5⟩⟩ 200
      ≠ Except.ok { Sketch.setup with
          fingerTrailRight := Sketch.setup.fingerTrailRight.update ⟨5, 5⟩ 200 } ∧
    Sketch.processHand Sketch.setup ⟨1 / 10, "Right", List.replicate 21 ⟨5, 5⟩⟩ 200
      ≠ Except.ok { Sketch.setup with
          fingerTrailLeft := Sketch.setup.fingerTrailLeft.update ⟨5, 5⟩ 200 } := by
  have h : Sketch.processHand Sketch.setup ⟨1 / 10, "Right", List.replicate 21 ⟨5, 5⟩⟩ 200
      = Except.ok Sketch.setup := by
    norm_num [Sketch.processHand]
  refine ⟨by norm_num, h, ?_, ?_⟩
  · rw [h]
    intro hc
    have := congrArg (fun s : Sketch => s.fingerTrailRight.current) (Except.ok.inj hc)
    simp [Sketch.setup, FingerTrail.constructor, FingerTrail.update_current] at this
  · rw [h]
    intro hc
    have := congrArg (fun s : Sketch => s.fingerTrailLeft.current) (Except.ok.inj hc)
    simp [Sketch.setup, FingerTrail.constructor, FingerTrail.update_current] at this

/-- C10 (amended): a detection is discarded, leaving both trails unchanged,
exactly when its confidence is at most `1/10` (the test is `confidence > 0.1`,
so confidence exactly `1/10` is discarded); a detection with confidence strictly
above `1/10` has its keypoint 8 passed to `update` of exactly one trail (the left
one for handedness `"Left"`, else the right one), the other trail unchanged. -/
theorem confidence_filter (s : Sketch) (hand : Hand) (m : ℚ) :
    (hand.confidence ≤ 1 / 10 → Sketch.processHand s hand m = Except.ok s) ∧
    (hand.confidence > 1 / 10 → ∀ kp : Vec, hand.keypoints[8]? = some kp →
      Sketch.processHand s hand m = Except.ok
        (if hand.handedness = "Left" then
          { s with fingerTrailLeft := s.fingerTrailLeft.update ⟨kp.x, kp.y⟩ m }
        else
          { s with fingerTrailRight := s.fingerTrailRight.update ⟨kp.x, kp.y⟩ m })) := by
  constructor
  · intro h
    unfold Sketch.processHand
    rw [if_neg (not_lt.2 h)]
  · intro h kp hkp
    unfold Sketch.processHand
    rw [if_pos h, hkp]
    dsimp only
    split_ifs <;> rfl

/-! ## Handedness dispatch -/

/-- C11: for every accepted detection (confidence above `1/10`, keypoint 8
present), if its handedness is exactly `"Left"` then the left trail receives
`update` with the point `(keypoints[8].x, keypoints[8].y)` and the right trail is
unchanged; for every other handedness value (`"Right"`, `"left"`, the empty
string, anything else) the right trail receives that update and the left trail
is unchanged. -/
theorem handedness_dispatch (s : Sketch) (hand : Hand) (m : ℚ) (kp : Vec)
    (hacc : hand.confidence > 1 / 10) (hkp : hand.keypoints[8]? = some kp) :
    (hand.handedness = "Left" →
      Sketch.processHand s hand m = Except.ok
        { fingerTrailLeft := s.fingerTrailLeft.update ⟨kp.x, kp.y⟩ m
          fingerTrailRight := s.fingerTrailRight }) ∧
    (hand.handedness ≠ "Left" →
      Sketch.processHand s hand m = Except.ok
        { fingerTrailLeft := s.fingerTrailLeft
          fingerTrailRight := s.fingerTrailRight.update ⟨kp.x, kp.y⟩ m }) := by
  constructor
  · intro h
    unfold Sketch.processHand
    rw [if_pos hacc, hkp]
    dsimp only
    rw [if_pos h]
  · intro h
    unfold Sketch.processHand
    rw [if_pos hacc, hkp]
    dsimp only
    rw [if_neg h]

/-- The witness of C11: a detection labelled `"left"` (lower case) goes to the
right trail. -/
theorem handedness_dispatch_witness :
    Sketch.processHand Sketch.setup ⟨9 / 10, "left", List.replicate 21 ⟨3, 4⟩⟩ 200 = Except.ok
      { fingerTrailLeft := Sketch.setup.fingerTrailLeft
        fingerTrailRight := Sketch.setup.fingerTrailRight.update ⟨3, 4⟩ 200 } :=
  (handedness_dispatch Sketch.setup ⟨9 / 10, "left", List.replicate 21 ⟨3, 4⟩⟩ 200 ⟨3, 4⟩
    (by norm_num) (by simp [List.replicate])).2 (by decide)

/-! ## The `current` point -/

theorem FingerTrail.step_current_isSome (t : FingerTrail) (c : Call) :
    (t.step c).current.isSome = (t.current.isSome || c.isUpdate) := by
  cases c with
  | update p m => simp [FingerTrail.step, t.update_current p m, Call.isUpdate]
  | draw m f => simp [FingerTrail.step, t.draw_current m f, Call.isUpdate]

theorem FingerTrail.run_current_isSome (cs : List Call) :
    ∀ t : FingerTrail, (t.run cs).current.isSome = (t.current.isSome || cs.any Call.isUpdate) := by
  induction cs with
  | nil => intro t; simp [FingerTrail.run]
  | cons c cs ih =>
    intro t
    have hrun : t.run (c :: cs) = (t.step c).run cs := rfl
    rw [hrun, ih (t.step c), t.step_current_isSome c, List.any_cons, Bool.or_assoc]

/-- C12: for a freshly constructed trail and every sequence of `update` and
`draw` calls, `current` is defined after the sequence if and only if the
sequence contains at least one `update`; and from any state with `current`
defined, `current` is still defined after any further calls (it is never
unset). -/
theorem current_defined_iff_updated (maxLength : ℕ) (col : Color)
    (debounceDelay idleThreshold : ℚ) (cs : List Call) :
    ((((FingerTrail.constructor maxLength col debounceDelay idleThreshold).run cs).current.isSome
        = true) ↔ ∃ c ∈ cs, c.isUpdate = true) ∧
    ∀ t : FingerTrail, t.current.isSome = true →
      ∀ later : List Call, (t.run later).current.isSome = true := by
  constructor
  · rw [FingerTrail.run_current_isSome]
    simp [FingerTrail.constructor]
  · intro t ht later
    rw [FingerTrail.run_current_isSome, ht]
    rfl

/-! ## Errors -/

/-- The loop over `hands` completes only when every accepted detection has a
keypoint 8. -/
theorem Sketch.processHands_ok_only (hands : List Hand) (m : ℚ) :
    ∀ s s1 : Sketch, Sketch.processHands s hands m = Except.ok s1 →
      ∀ h ∈ hands, h.confidence > 1 / 10 → 8 < h.keypoints.length := by
  induction hands with
  | nil => intro s s1 _ h hh; simp at hh
  | cons h0 hs ih =>
    intro s s1 hok h hh hc
    rw [Sketch.processHands] at hok
    cases hstep : Sketch.processHand s h0 m with
    | error e => rw [hstep] at hok; simp at hok
    | ok s' =>
      rw [hstep] at hok
      rcases List.mem_cons.1 hh with rfl | hmem
      · by_contra hlen
        have hnone : h.keypoints[8]? = none := List.getElem?_eq_none (by omega)
        unfold Sketch.processHand at hstep
        rw [if_pos hc, hnone] at hstep
        simp at hstep
      · exact ih s' s1 hok h hmem hc

/-- Detections the confidence test rejects do not change the loop's result. -/
theorem Sketch.processHands_filter (hands : List Hand) (m : ℚ) :
    ∀ s : Sketch, Sketch.processHands s hands m
      = Sketch.processHands s (hands.filter fun h => decide (h.confidence > 1 / 10)) m := by
  induction hands with
  | nil => intro s; rfl
  | cons h0 hs ih =>
    intro s
    by_cases hc : h0.confidence > 1 / 10
    · rw [List.filter_cons_of_pos (by simpa using hc), Sketch.processHands, Sketch.processHands]
      cases Sketch.processHand s h0 m with
      | error e => rfl
      | ok s' => exact ih s'
    · rw [List.filter_cons_of_neg (by simpa using hc), Sketch.processHands]
      have : Sketch.processHand s h0 m = Except.ok s := by
        unfold Sketch.processHand
        rw [if_neg hc]
      rw [this]
      exact ih s

/-- C13 (as stated, refuted): a frame whose only detection is accepted
(confidence `9/10`) but has an empty `keypoints` sequence does not complete:
`draw` throws when it reads `.x` of the missing keypoint 8. -/
theorem frame_malformed_counterexample :
    Sketch.draw ⟨640, 480, 100, 100⟩ Sketch.setup [⟨9 / 10, "Left", []⟩] 200 7
      = Except.error "TypeError" := by
  norm_num [Sketch.draw, Sketch.processHands, Sketch.processHand]

/-- C13 (amended): the frame step (routing, both renders, proximity check)
completes without an error exactly when every accepted detection (confidence
above `1/10`) has an entry at keypoint index 8; detections with confidence at
most `1/10`, malformed or not, are handled by omission: the frame does what it
would do with those detections absent. -/
theorem frame_total_iff_keypoints (cv : Canvas) (s : Sketch) (hands : List Hand) (m : ℚ)
    (f : ℕ) :
    ((∃ (s2 : Sketch) (out : List DrawCmd), Sketch.draw cv s hands m f = Except.ok (s2, out)) ↔
      ∀ h ∈ hands, h.confidence > 1 / 10 → 8 < h.keypoints.length) ∧
    Sketch.draw cv s hands m f
      = Sketch.draw cv s (hands.filter fun h => decide (h.confidence > 1 / 10)) m f := by
  constructor
  · constructor
    · rintro ⟨s2, out, hd⟩
      cases hp : Sketch.processHands s hands m with
      | error e => rw [Sketch.draw, hp] at hd; simp at hd
      | ok s1 => exact Sketch.processHands_ok_only hands m s s1 hp
    · intro hkp
      obtain ⟨s1, hs1⟩ := Sketch.processHands_ok hands m s hkp
      exact ⟨_, _, by rw [Sketch.draw, hs1]⟩
  · rw [Sketch.draw, Sketch.draw, ← Sketch.processHands_filter]

/-! ## Joins of the ribbon -/

/-- C14: for every render whose history (after the decay step) has `n ≥ 3`
points, with exact arithmetic: (a) segment `i` starts at `points[i]` and ends at
`points[i+1]`, so consecutive segments share their end point and the curve
passes through every retained point; (b) at every interior join the end tangent
`3 * (p2 - cp2)` of segment `i` and the start tangent `3 * (cp1' - p1')` of
segment `i + 1` are both `(points[i+2] - points[i]) / 2`. -/
theorem ribbon_joins (t : FingerTrail) (m : ℚ) (f : ℕ)
    (h3 : 3 ≤ (t.draw m f).1.points.length) :
    ∃ segs : List DrawCmd,
      (t.draw m f).2 = [DrawCmd.stroke t.col, DrawCmd.strokeWeight 4, DrawCmd.noFill] ++ segs ∧
      segs.length = (t.draw m f).1.points.length - 1 ∧
      (∀ (i : ℕ) (p1 p2 : Vec), (t.draw m f).1.points[i]? = some p1 →
        (t.draw m f).1.points[i + 1]? = some p2 →
        ∃ c1x c1y c2x c2y : ℚ,
          segs[i]? = some (DrawCmd.bezier p1.x p1.y c1x c1y c2x c2y p2.x p2.y)) ∧
      (∀ (i : ℕ) (a b c : Vec), (t.draw m f).1.points[i]? = some a →
        (t.draw m f).1.points[i + 1]? = some b → (t.draw m f).1.points[i + 2]? = some c →
        ∃ c1x c1y c2x c2y d1x d1y d2x d2y : ℚ,
          segs[i]? = some (DrawCmd.bezier a.x a.y c1x c1y c2x c2y b.x b.y) ∧
          segs[i + 1]? = some (DrawCmd.bezier b.x b.y d1x d1y d2x d2y c.x c.y) ∧
          3 * (b.x - c2x) = (c.x - a.x) / 2 ∧ 3 * (d1x - b.x) = (c.x - a.x) / 2 ∧
          3 * (b.y - c2y) = (c.y - a.y) / 2 ∧ 3 * (d1y - b.y) = (c.y - a.y) / 2) := by
  have hseg : ∀ i : ℕ, i + 1 < (t.draw m f).1.points.length →
      ((List.range ((t.draw m f).1.points.length - 1)).map
        (FingerTrail.bezierSegment (t.draw m f).1.points))[i]?
        = some (FingerTrail.bezierSegment (t.draw m f).1.points i) := by
    intro i hi
    rw [List.getElem?_map, List.getElem?_range (by omega)]
    rfl
  refine ⟨_, t.draw_curve m f h3, by simp, ?_, ?_⟩
  · intro i p1 p2 h1 h2
    have hi : i + 1 < (t.draw m f).1.points.length := (List.getElem?_eq_some.1 h2).1
    have h := hseg i hi
    simp only [FingerTrail.bezierSegment, List.getD_eq_getElem?_getD, h1, h2,
      Option.getD_some] at h
    exact ⟨_, _, _, _, h⟩
  · intro i a b c ha hb hc
    have hi : i + 2 < (t.draw m f).1.points.length := (List.getElem?_eq_some.1 hc).1
    have hc' : (t.draw m f).1.points[i + 1 + 1]? = some c := hc
    have ha' : (t.draw m f).1.points[i + 1 - 1]? = some a := ha
    have hs0 := hseg i (by omega)
    have hs1 := hseg (i + 1) (by omega)
    simp only [FingerTrail.bezierSegment, List.getD_eq_getElem?_getD, ha, hb, hc, if_pos hi,
      Option.getD_some] at hs0
    simp only [FingerTrail.bezierSegment, List.getD_eq_getElem?_getD, hb, hc', ha',
      Nat.succ_ne_zero, if_false, Option.getD_some] at hs1
    refine ⟨_, _, _, _, _, _, _, _, hs0, hs1, ?_, ?_, ?_, ?_⟩ <;>
      simp only [Vec.add, Vec.sub, Vec.mult] <;> ring

/-- The witness of C14: three points, not idle. -/
theorem ribbon_joins_witness :
    ∃ segs : List DrawCmd,
      (({ FingerTrail.constructor 3 ⟨0, 255, 0⟩ 100 3000 with
          points := [⟨0, 0⟩, ⟨6, 0⟩, ⟨12, 6⟩] } : FingerTrail).draw 50 1).2
        = [DrawCmd.stroke ⟨0, 255, 0⟩, DrawCmd.strokeWeight 4, DrawCmd.noFill] ++ segs ∧
      ∃ c1x c1y c2x c2y : ℚ, segs[1]? = some (DrawCmd.bezier 6 0 c1x c1y c2x c2y 12 6) := by
  have hp : (({ FingerTrail.constructor 3 ⟨0, 255, 0⟩ 100 3000 with
      points := [⟨0, 0⟩, ⟨6, 0⟩, ⟨12, 6⟩] } : FingerTrail).draw 50 1).1.points
      = [⟨0, 0⟩, ⟨6, 0⟩, ⟨12, 6⟩] := by
    norm_num [FingerTrail.draw, FingerTrail.decay, FingerTrail.constructor]
  obtain ⟨segs, h1, _, h2, _⟩ := ribbon_joins
    ({ FingerTrail.constructor 3 ⟨0, 255, 0⟩ 100 3000 with
      points := [⟨0, 0⟩, ⟨6, 0⟩, ⟨12, 6⟩] } : FingerTrail) 50 1 (by rw [hp]; decide)
  exact ⟨segs, h1, h2 1 ⟨6, 0⟩ ⟨12, 6⟩ (by rw [hp]; rfl) (by rw [hp]; rfl)⟩

/-! ## The effect of `update` and `draw` on the state -/

theorem FingerTrail.update_points (t : FingerTrail) (p : Vec) (m : ℚ) :
    (t.update p m).points =
      if t.records m then
        (if (t.points ++ [t.smoothed p]).length > t.maxLength then
          (t.points ++ [t.smoothed p]).tail else t.points ++ [t.smoothed p])
      else t.points := by
  unfold FingerTrail.update FingerTrail.records
  dsimp only
  split_ifs <;> rfl

/-- C15: in `update(rawPoint, now)` on a trail with `maxLength > 0`, with `c'` the
smoothed `current` after the call: if `now - lastRecordedTime ≥ debounceDelay`
(boundary included) then `lastRecordedTime` becomes `now` and the history becomes
`old ++ [c']` when `old.length < maxLength`, and `old` without its first element
followed by `c'` when `old.length = maxLength`; if
`now - lastRecordedTime < debounceDelay` the history and `lastRecordedTime` are
unchanged. In every case the new history is `old`, `old ++ [c']` or
`old.tail ++ [c']`, so surviving elements keep their order. -/
theorem update_append_fifo (t : FingerTrail) (p : Vec) (m : ℚ) (hpos : 0 < t.maxLength) :
    ∃ c' : Vec, (t.update p m).current = some c' ∧
      (m - t.lastRecordedTime ≥ t.debounceDelay →
        (t.update p m).lastRecordedTime = m ∧
        (t.points.length < t.maxLength → (t.update p m).points = t.points ++ [c']) ∧
        (t.points.length = t.maxLength → (t.update p m).points = t.points.tail ++ [c'])) ∧
      (m - t.lastRecordedTime < t.debounceDelay →
        (t.update p m).points = t.points ∧ (t.update p m).lastRecordedTime = t.lastRecordedTime) ∧
      ((t.update p m).points = t.points ∨ (t.update p m).points = t.points ++ [c'] ∨
        (t.update p m).points = t.points.tail ++ [c']) := by
  refine ⟨t.smoothed p, t.update_current p m, ?_, ?_, ?_⟩
  · intro h
    have hr : t.records m = true := (t.records_iff m).2 h
    refine ⟨by rw [t.update_lastRecordedTime, if_pos hr], ?_, ?_⟩
    · intro hlt
      rw [t.update_points, if_pos hr, if_neg (by simp only [List.length_append, List.length_singleton]; omega)]
    · intro heq
      rw [t.update_points, if_pos hr, if_pos (by simp only [List.length_append, List.length_singleton]; omega)]
      have hne : t.points ≠ [] := by
        intro h0
        rw [h0] at heq
        simp at heq
        omega
      exact List.tail_append_of_ne_nil hne
  · intro h
    have hr : ¬ (t.records m = true) := fun hh => absurd ((t.records_iff m).1 hh) (not_le.2 h)
    exact ⟨by rw [t.update_points, if_neg hr], by rw [t.update_lastRecordedTime, if_neg hr]⟩
  · rw [t.update_points]
    split_ifs with hr hlen
    · right; right
      have hne : t.points ≠ [] := by
        intro h0
        rw [h0] at hlen
        simp at hlen
        omega
      exact List.tail_append_of_ne_nil hne
    · right; left; rfl
    · left; rfl

/-- The witness of C15: a full history of three points; the push evicts the oldest. -/
theorem update_append_fifo_witness :
    ∃ c' : Vec,
      (({ FingerTrail.constructor 3 ⟨0, 255, 0⟩ 100 3000 with
          points := [⟨0, 0⟩, ⟨1, 1⟩, ⟨2, 2⟩], current := some ⟨2, 2⟩ } : FingerTrail).update
        ⟨12, 2⟩ 100).points = [⟨1, 1⟩, ⟨2, 2⟩, c'] := by
  obtain ⟨c', _, h, _⟩ := update_append_fifo
    ({ FingerTrail.constructor 3 ⟨0, 255, 0⟩ 100 3000 with
      points := [⟨0, 0⟩, ⟨1, 1⟩, ⟨2, 2⟩], current := some ⟨2, 2⟩ } : FingerTrail)
    ⟨12, 2⟩ 100 (by norm_num [FingerTrail.constructor])
  exact ⟨c', (h (by norm_num [FingerTrail.constructor])).2.2 rfl⟩

/-- C16: for every trail state, clock reading and frame counter, `draw` leaves
`current`, `lastRecordedTime`, `maxLength`, `debounceDelay`, `idleThreshold` and
`smoothingFactor` (and the colour) unchanged; it removes exactly the oldest
history element when the history is non-empty,
`now - lastRecordedTime > idleThreshold` (strictly) and `frameCount % 5 = 0`, and
otherwise leaves the history unchanged; in particular there is no decay when
`now - lastRecordedTime = idleThreshold`. -/
theorem draw_state_effect (t : FingerTrail) (m : ℚ) (f : ℕ) :
    (t.draw m f).1
      = (if t.points ≠ [] ∧ m - t.lastRecordedTime > t.idleThreshold ∧ f % 5 = 0 then
          { t with points := t.points.tail } else t) ∧
    (t.draw m f).1.current = t.current ∧
    (t.draw m f).1.lastRecordedTime = t.lastRecordedTime ∧
    (t.draw m f).1.maxLength = t.maxLength ∧
    (t.draw m f).1.debounceDelay = t.debounceDelay ∧
    (t.draw m f).1.idleThreshold = t.idleThreshold ∧
    (t.draw m f).1.smoothingFactor = t.smoothingFactor ∧
    (t.draw m f).1.col = t.col ∧
    (m - t.lastRecordedTime = t.idleThreshold → (t.draw m f).1 = t) := by
  have hmain : (t.draw m f).1
      = (if t.points ≠ [] ∧ m - t.lastRecordedTime > t.idleThreshold ∧ f % 5 = 0 then
          { t with points := t.points.tail } else t) := by
    show t.decay m f = _
    unfold FingerTrail.decay
    have hlen : t.points.length > 0 ↔ t.points ≠ [] := List.length_pos
    by_cases h1 : m - t.lastRecordedTime > t.idleThreshold
    · by_cases h2 : t.points ≠ []
      · by_cases h3 : f % 5 = 0
        · rw [if_pos ⟨h1, hlen.2 h2⟩, if_pos h3, if_pos ⟨h2, h1, h3⟩]
        · rw [if_pos ⟨h1, hlen.2 h2⟩, if_neg h3, if_neg (fun h => h3 h.2.2)]
      · rw [if_neg (fun h => h2 (hlen.1 h.2)), if_neg (fun h => h2 h.1)]
    · rw [if_neg (fun h => h1 h.1), if_neg (fun h => h1 h.2.1)]
  refine ⟨hmain, ?_, ?_, ?_, ?_, ?_, ?_, ?_, ?_⟩
  all_goals first
    | (intro he
       rw [hmain, if_neg (fun h => absurd he (ne_of_gt h.2.1))])
    | (rw [hmain]; split_ifs <;> rfl)

/-! ## The first append of a fresh trail -/

theorem FingerTrail.appended_append (cs ds : List Call) :
    ∀ t : FingerTrail, t.appended (cs ++ ds) = t.appended cs ++ (t.run cs).appended ds := by
  induction cs with
  | nil => intro t; rfl
  | cons c cs ih =>
    intro t
    have hrun : t.run (c :: cs) = (t.step c).run cs := rfl
    have h := ih (t.step c)
    simp only [List.cons_append, FingerTrail.appended, hrun]
    exact congrArg _ h

/-- While the history is empty and every `update` comes within `debounceDelay`
of `lastRecordedTime`, no call pushes and the history stays empty. -/
theorem FingerTrail.run_before_first_append (cs : List Call) :
    ∀ t : FingerTrail, t.points = [] →
      (∀ p m, Call.update p m ∈ cs → m - t.lastRecordedTime < t.debounceDelay) →
      (t.run cs).points = [] ∧ (t.run cs).lastRecordedTime = t.lastRecordedTime ∧
      (t.run cs).debounceDelay = t.debounceDelay ∧ (t.run cs).maxLength = t.maxLength ∧
      t.appended cs = cs.map fun _ => false := by
  induction cs with
  | nil => intro t h _; exact ⟨h, rfl, rfl, rfl, rfl⟩
  | cons c cs ih =>
    intro t hp h
    have hrun : t.run (c :: cs) = (t.step c).run cs := rfl
    have hstep : (t.step c).points = [] ∧ (t.step c).lastRecordedTime = t.lastRecordedTime ∧
        (t.step c).maxLength = t.maxLength ∧
        t.appended (c :: cs) = false :: (t.step c).appended cs := by
      cases c with
      | update p m =>
        have hlt := h p m (List.mem_cons_self _ _)
        have hr : t.records m = false := by
          simp only [FingerTrail.records, decide_eq_false_iff_not, ge_iff_le, not_le]
          exact hlt
        refine ⟨?_, ?_, t.update_maxLength p m, by simp only [FingerTrail.appended, hr]⟩
        · simp only [FingerTrail.step, t.update_points, hr]
          exact hp
        · simp only [FingerTrail.step, t.update_lastRecordedTime, hr]
          rfl
      | draw m f =>
        refine ⟨?_, t.draw_lastRecordedTime m f, t.decay_maxLength m f, rfl⟩
        have := t.decay_length_le m f
        rw [hp] at this
        exact List.length_eq_zero.1 (Nat.le_zero.1 this)
    obtain ⟨h1, h2, h3, h4⟩ := hstep
    have hD := t.step_debounceDelay c
    obtain ⟨i1, i2, i3, i4, i5⟩ := ih (t.step c) h1 (by
      intro p m hm
      rw [h2, hD]
      exact h p m (List.mem_cons_of_mem _ hm))
    refine ⟨by rw [hrun, i1], by rw [hrun, i2, h2], by rw [hrun, i3, hD], by rw [hrun, i4, h3], ?_⟩
    rw [h4, i5, List.map_cons]

/-- C17: because `lastRecordedTime` is initialised to 0, on a freshly
constructed trail any calls whose `update`s all come at times `now <
debounceDelay` set `current` but push nothing, so the history stays empty; the
first `update` at a time `≥ debounceDelay` is the first call that pushes, and
(with `maxLength > 0`) the history is then the single point `current`. -/
theorem fresh_trail_first_append (maxLength : ℕ) (col : Color) (debounceDelay idleThreshold : ℚ)
    (cs : List Call) (hlt : ∀ p m, Call.update p m ∈ cs → m < debounceDelay) :
    ((FingerTrail.constructor maxLength col debounceDelay idleThreshold).run cs).points = [] ∧
    (FingerTrail.constructor maxLength col debounceDelay idleThreshold).appended cs
      = (cs.map fun _ => false) ∧
    ((∃ c ∈ cs, c.isUpdate = true) →
      ((FingerTrail.constructor maxLength col debounceDelay idleThreshold).run cs).current.isSome
        = true) ∧
    ∀ (p : Vec) (m : ℚ), debounceDelay ≤ m →
      (FingerTrail.constructor maxLength col debounceDelay idleThreshold).appended
        (cs ++ [Call.update p m]) = (cs.map fun _ => false) ++ [true] ∧
      (0 < maxLength → ∃ c' : Vec,
        ((FingerTrail.constructor maxLength col debounceDelay idleThreshold).run
          (cs ++ [Call.update p m])).current = some c' ∧
        ((FingerTrail.constructor maxLength col debounceDelay idleThreshold).run
          (cs ++ [Call.update p m])).points = [c']) := by
  obtain ⟨h1, h2, h3, h4, h5⟩ := FingerTrail.run_before_first_append cs
    (FingerTrail.constructor maxLength col debounceDelay idleThreshold) rfl (by
      intro p m hm
      show m - 0 < debounceDelay
      rw [sub_zero]
      exact hlt p m hm)
  have h2' : ((FingerTrail.constructor maxLength col debounceDelay idleThreshold).run
      cs).lastRecordedTime = 0 := h2
  have h3' : ((FingerTrail.constructor maxLength col debounceDelay idleThreshold).run
      cs).debounceDelay = debounceDelay := h3
  have h4' : ((FingerTrail.constructor maxLength col debounceDelay idleThreshold).run
      cs).maxLength = maxLength := h4
  refine ⟨h1, h5, ?_, ?_⟩
  · rintro ⟨c, hc, hu⟩
    rw [FingerTrail.run_current_isSome]
    have : cs.any Call.isUpdate = true := List.any_eq_true.2 ⟨c, hc, hu⟩
    rw [this, Bool.or_true]
  · intro p m hm
    have hr : ((FingerTrail.constructor maxLength col debounceDelay idleThreshold).run
        cs).records m = true := by
      rw [FingerTrail.records_iff, h2', h3', sub_zero]
      exact hm
    constructor
    · rw [FingerTrail.appended_append, h5]
      simp only [FingerTrail.appended, hr]
    · intro hpos
      have hrun : (FingerTrail.constructor maxLength col debounceDelay idleThreshold).run
          (cs ++ [Call.update p m])
          = ((FingerTrail.constructor maxLength col debounceDelay idleThreshold).run cs).update
            p m := by
        simp only [FingerTrail.run, List.foldl_append, List.foldl_cons, List.foldl_nil,
          FingerTrail.step]
      rw [hrun]
      refine ⟨_, FingerTrail.update_current _ p m, ?_⟩
      rw [FingerTrail.update_points, if_pos hr, h1, h4']
      simp only [List.nil_append, List.length_singleton]
      rw [if_neg (by omega)]

/-- The witness of C17: updates at 0 and 50, a render, then the update at 150. -/
theorem fresh_trail_first_append_witness :
    (FingerTrail.constructor 3 ⟨0, 255, 0⟩ 100 3000).appended
      ([Call.update ⟨1, 2⟩ 0, Call.update ⟨3, 4⟩ 50, Call.draw 60 5] ++ [Call.update ⟨5, 6⟩ 150])
      = [false, false, false, true] :=
  ((fresh_trail_first_append 3 ⟨0, 255, 0⟩ 100 3000
    [Call.update ⟨1, 2⟩ 0, Call.update ⟨3, 4⟩ 50, Call.draw 60 5]
    (by
      intro p m hm
      simp only [List.mem_cons, List.mem_singleton, Call.update.injEq, List.not_mem_nil,
        or_false, reduceCtorEq] at hm
      rcases hm with ⟨_, rfl⟩ | ⟨_, rfl⟩ <;> norm_num)).2.2.2 ⟨5, 6⟩ 150 (by norm_num)).1

/-! ## The bounding box of the raw points -/

theorem inBox_mono (rs rs' : List Vec) (q : Vec) (hsub : ∀ a ∈ rs, a ∈ rs') (h : inBox rs q) :
    inBox rs' q := by
  obtain ⟨⟨a, ha, h1⟩, ⟨b, hb, h2⟩, ⟨c, hc, h3⟩, ⟨d, hd, h4⟩⟩ := h
  exact ⟨⟨a, hsub a ha, h1⟩, ⟨b, hsub b hb, h2⟩, ⟨c, hsub c hc, h3⟩, ⟨d, hsub d hd, h4⟩⟩

theorem inBox_self (rs : List Vec) (p : Vec) (hp : p ∈ rs) : inBox rs p :=
  ⟨⟨p, hp, le_refl _⟩, ⟨p, hp, le_refl _⟩, ⟨p, hp, le_refl _⟩, ⟨p, hp, le_refl _⟩⟩

/-- A `lerp` with a factor in `[0, 1]` stays between its two ends. -/
theorem lerp_between (a b s : ℚ) (h0 : 0 ≤ s) (h1 : s ≤ 1) :
    min a b ≤ lerp a b s ∧ lerp a b s ≤ max a b := by
  unfold lerp
  rcases le_total a b with hab | hab
  · rw [min_eq_left hab, max_eq_right hab]
    constructor <;> nlinarith
  · rw [min_eq_right hab, max_eq_left hab]
    constructor <;> nlinarith

/-- The smoothed point stays in the box of the raw points seen, the new one included. -/
theorem FingerTrail.smoothed_inBox (t : FingerTrail) (rs : List Vec) (p : Vec)
    (h0 : 0 ≤ t.smoothingFactor) (h1 : t.smoothingFactor ≤ 1)
    (hc : ∀ c, t.current = some c → inBox rs c) : inBox (rs ++ [p]) (t.smoothed p) := by
  have hp : p ∈ rs ++ [p] := by simp
  unfold FingerTrail.smoothed
  cases hcur : t.current with
  | none => exact inBox_self _ p hp
  | some c =>
    obtain ⟨⟨a, ha, hax⟩, ⟨b, hb, hbx⟩, ⟨a', ha', hay⟩, ⟨b', hb', hby⟩⟩ :=
      inBox_mono rs (rs ++ [p]) c (fun a ha => List.mem_append_left _ ha) (hc c hcur)
    have hx := lerp_between c.x p.x t.smoothingFactor h0 h1
    have hy := lerp_between c.y p.y t.smoothingFactor h0 h1
    refine ⟨?_, ?_, ?_, ?_⟩
    · rcases le_total c.x p.x with h | h
      · exact ⟨a, ha, le_trans hax (by rw [min_eq_left h] at hx; exact hx.1)⟩
      · exact ⟨p, hp, by rw [min_eq_right h] at hx; exact hx.1⟩
    · rcases le_total c.x p.x with h | h
      · exact ⟨p, hp, by rw [max_eq_right h] at hx; exact hx.2⟩
      · exact ⟨b, hb, le_trans (by rw [max_eq_left h] at hx; exact hx.2) hbx⟩
    · rcases le_total c.y p.y with h | h
      · exact ⟨a', ha', le_trans hay (by rw [min_eq_left h] at hy; exact hy.1)⟩
      · exact ⟨p, hp, by rw [min_eq_right h] at hy; exact hy.1⟩
    · rcases le_total c.y p.y with h | h
      · exact ⟨p, hp, by rw [max_eq_right h] at hy; exact hy.2⟩
      · exact ⟨b', hb', le_trans (by rw [max_eq_left h] at hy; exact hy.2) hby⟩

theorem FingerTrail.step_smoothingFactor (t : FingerTrail) (c : Call) :
    (t.step c).smoothingFactor = t.smoothingFactor := by
  cases c with
  | update p m => exact t.update_smoothingFactor p m
  | draw m f =>
    show (t.decay m f).smoothingFactor = _
    unfold FingerTrail.decay
    split_ifs <;> rfl

theorem FingerTrail.decay_points_subset (t : FingerTrail) (m : ℚ) (f : ℕ) :
    ∀ q ∈ (t.decay m f).points, q ∈ t.points := by
  intro q hq
  unfold FingerTrail.decay at hq
  split_ifs at hq
  · exact List.mem_of_mem_tail hq
  · exact hq
  · exact hq

/-- One call keeps `current` and the history inside the box of the raw points. -/
theorem FingerTrail.step_inBox (t : FingerTrail) (rs : List Vec) (c : Call)
    (h0 : 0 ≤ t.smoothingFactor) (h1 : t.smoothingFactor ≤ 1)
    (hc : ∀ q, t.current = some q → inBox rs q) (hp : ∀ q ∈ t.points, inBox rs q) :
    (∀ q, (t.step c).current = some q → inBox (rs ++ rawPoints [c]) q) ∧
    ∀ q ∈ (t.step c).points, inBox (rs ++ rawPoints [c]) q := by
  cases c with
  | update p m =>
    have hs := t.smoothed_inBox rs p h0 h1 hc
    have hmono : ∀ q, inBox rs q → inBox (rs ++ [p]) q := fun q hq =>
      inBox_mono rs (rs ++ [p]) q (fun a ha => List.mem_append_left _ ha) hq
    constructor
    · intro q hq
      simp only [FingerTrail.step, t.update_current p m, Option.some.injEq] at hq
      subst hq
      exact hs
    · intro q hq
      simp only [FingerTrail.step, t.update_points p m] at hq
      have hmem : q ∈ t.points ++ [t.smoothed p] := by
        split_ifs at hq
        · exact List.mem_of_mem_tail hq
        · exact hq
        · exact List.mem_append_left _ hq
      rcases List.mem_append.1 hmem with h | h
      · exact hmono q (hp q h)
      · rw [List.mem_singleton.1 h]
        exact hs
  | draw m f =>
    have hraw : rs ++ rawPoints [Call.draw m f] = rs := by simp [rawPoints]
    rw [hraw]
    constructor
    · intro q hq
      exact hc q (by rw [← t.draw_current m f]; exact hq)
    · intro q hq
      exact hp q (t.decay_points_subset m f q hq)

theorem rawPoints_cons (c : Call) (cs : List Call) :
    rawPoints (c :: cs) = rawPoints [c] ++ rawPoints cs := by
  cases c <;> simp [rawPoints]

theorem FingerTrail.run_inBox (cs : List Call) :
    ∀ (t : FingerTrail) (rs : List Vec), 0 ≤ t.smoothingFactor → t.smoothingFactor ≤ 1 →
      (∀ q, t.current = some q → inBox rs q) → (∀ q ∈ t.points, inBox rs q) →
      (∀ q, (t.run cs).current = some q → inBox (rs ++ rawPoints cs) q) ∧
      ∀ q ∈ (t.run cs).points, inBox (rs ++ rawPoints cs) q := by
  induction cs with
  | nil =>
    intro t rs _ _ hc hp
    simp only [rawPoints, List.append_nil]
    exact ⟨hc, hp⟩
  | cons c cs ih =>
    intro t rs h0 h1 hc hp
    obtain ⟨hc', hp'⟩ := t.step_inBox rs c h0 h1 hc hp
    have hrun : t.run (c :: cs) = (t.step c).run cs := rfl
    have := ih (t.step c) (rs ++ rawPoints [c]) (by rw [t.step_smoothingFactor]; exact h0)
      (by rw [t.step_smoothingFactor]; exact h1) hc' hp'
    rw [hrun, rawPoints_cons, ← List.append_assoc]
    exact this

/-- C18: for a freshly constructed trail (`smoothingFactor = 3/10`, exact
arithmetic) and every sequence of `update` and `draw` calls, the smoothed
`current` and every point stored in the history lie in the axis-aligned bounding
box of the raw points passed to `update` so far: some raw `x` is `≤` the point's
`x` and some raw `x` is `≥` it, and the same for `y`. -/
theorem current_and_history_in_raw_box (maxLength : ℕ) (col : Color)
    (debounceDelay idleThreshold : ℚ) (cs : List Call) (q : Vec)
    (hq : ((FingerTrail.constructor maxLength col debounceDelay idleThreshold).run cs).current
        = some q ∨
      q ∈ ((FingerTrail.constructor maxLength col debounceDelay idleThreshold).run cs).points) :
    (∃ a ∈ rawPoints cs, a.x ≤ q.x) ∧ (∃ b ∈ rawPoints cs, q.x ≤ b.x) ∧
    (∃ a ∈ rawPoints cs, a.y ≤ q.y) ∧ (∃ b ∈ rawPoints cs, q.y ≤ b.y) := by
  have h := FingerTrail.run_inBox cs
    (FingerTrail.constructor maxLength col debounceDelay idleThreshold) []
    (by norm_num [FingerTrail.constructor]) (by norm_num [FingerTrail.constructor])
    (by intro q hq; simp [FingerTrail.constructor] at hq)
    (by intro q hq; simp [FingerTrail.constructor] at hq)
  rw [List.nil_append] at h
  rcases hq with hq | hq
  · exact h.1 q hq
  · exact h.2 q hq

/-- The witness of C18: updates toward `(0, 0)` then `(10, 20)`, both recorded. -/
theorem current_and_history_in_raw_box_witness :
    (∃ a ∈ rawPoints [Call.update ⟨0, 0⟩ 100, Call.draw 110 5, Call.update ⟨10, 20⟩ 200],
      a.x ≤ (3 : ℚ)) ∧
    (∃ b ∈ rawPoints [Call.update ⟨0, 0⟩ 100, Call.draw 110 5, Call.update ⟨10, 20⟩ 200],
      (3 : ℚ) ≤ b.x) :=
  have h := current_and_history_in_raw_box 3 ⟨0, 255, 0⟩ 100 3000
    [Call.update ⟨0, 0⟩ 100, Call.draw 110 5, Call.update ⟨10, 20⟩ 200] ⟨3, 6⟩
    (Or.inl (by
      norm_num [FingerTrail.run, FingerTrail.step, FingerTrail.update, FingerTrail.draw,
        FingerTrail.decay, FingerTrail.records, FingerTrail.smoothed, FingerTrail.constructor,
        lerp]))
  ⟨h.1, h.2.1⟩

/-! ## The overlay without trails -/

/-- A frame with no detections, on trails too short to draw whose `current`
points are within the threshold: only the background and the centred image are
drawn, and the same holds of the next state. -/
theorem Sketch.draw_quiet (cv : Canvas) (s : Sketch) (m : ℚ) (f : ℕ) (l r : Vec)
    (hl : s.fingerTrailLeft.current = some l) (hr : s.fingerTrailRight.current = some r)
    (hd : distLt l.x l.y r.x r.y easterEggThreshold)
    (hpl : s.fingerTrailLeft.points.length < 2) (hpr : s.fingerTrailRight.points.length < 2) :
    ∃ s1 : Sketch,
      Sketch.draw cv s [] m f = Except.ok (s1, [DrawCmd.background "#fefefe",
        DrawCmd.image (cv.width / 2 - cv.imgWidth / 2) (cv.height / 2 - cv.imgHeight / 2)]) ∧
      s1.fingerTrailLeft.current = some l ∧ s1.fingerTrailRight.current = some r ∧
      s1.fingerTrailLeft.points.length < 2 ∧ s1.fingerTrailRight.points.length < 2 := by
  have hl1 : (s.fingerTrailLeft.draw m f).1.points.length < 2 :=
    lt_of_le_of_lt (s.fingerTrailLeft.decay_length_le m f) hpl
  have hr1 : (s.fingerTrailRight.draw m f).1.points.length < 2 :=
    lt_of_le_of_lt (s.fingerTrailRight.decay_length_le m f) hpr
  have hl2 : (s.fingerTrailLeft.draw m f).2 = [] := by
    show FingerTrail.strokes _ (s.fingerTrailLeft.draw m f).1.points = []
    unfold FingerTrail.strokes
    rw [if_pos hl1]
  have hr2 : (s.fingerTrailRight.draw m f).2 = [] := by
    show FingerTrail.strokes _ (s.fingerTrailRight.draw m f).1.points = []
    unfold FingerTrail.strokes
    rw [if_pos hr1]
  have hcl := s.fingerTrailLeft.draw_current m f
  have hcr := s.fingerTrailRight.draw_current m f
  refine ⟨⟨(s.fingerTrailLeft.draw m f).1, (s.fingerTrailRight.draw m f).1⟩, ?_,
    by rw [hcl, hl], by rw [hcr, hr], hl1, hr1⟩
  have hegg : Sketch.easterEgg cv
      ⟨(s.fingerTrailLeft.draw m f).1, (s.fingerTrailRight.draw m f).1⟩
      = [DrawCmd.image (cv.width / 2 - cv.imgWidth / 2) (cv.height / 2 - cv.imgHeight / 2)] := by
    unfold Sketch.easterEgg
    simp only [hcl, hcr, hl, hr]
    rw [if_pos hd]
  simp only [Sketch.draw, Sketch.processHands, hl2, hr2, hegg, List.append_nil,
    List.singleton_append]

theorem Sketch.frames_quiet (cv : Canvas) (fs : List (ℚ × ℕ)) :
    ∀ (s : Sketch) (l r : Vec), s.fingerTrailLeft.current = some l →
      s.fingerTrailRight.current = some r → distLt l.x l.y r.x r.y easterEggThreshold →
      s.fingerTrailLeft.points.length < 2 → s.fingerTrailRight.points.length < 2 →
      ∃ (s2 : Sketch) (outs : List (List DrawCmd)),
        Sketch.frames cv s (fs.map fun mf => ([], mf.1, mf.2)) = Except.ok (s2, outs) ∧
        outs.length = fs.length ∧
        ∀ out ∈ outs, out = [DrawCmd.background "#fefefe",
          DrawCmd.image (cv.width / 2 - cv.imgWidth / 2) (cv.height / 2 - cv.imgHeight / 2)] := by
  induction fs with
  | nil => intro s l r _ _ _ _ _; exact ⟨s, [], rfl, rfl, by simp⟩
  | cons mf fs ih =>
    intro s l r hl hr hd hpl hpr
    obtain ⟨s1, h1, hl1, hr1, hpl1, hpr1⟩ := Sketch.draw_quiet cv s mf.1 mf.2 l r hl hr hd hpl hpr
    obtain ⟨s2, outs, h2, hlen, hall⟩ := ih s1 l r hl1 hr1 hd hpl1 hpr1
    refine ⟨s2, [DrawCmd.background "#fefefe",
      DrawCmd.image (cv.width / 2 - cv.imgWidth / 2) (cv.height / 2 - cv.imgHeight / 2)] :: outs,
      ?_, by simp [hlen], ?_⟩
    · simp only [List.map_cons, Sketch.frames, h1, h2]
    · intro out hout
      rcases List.mem_cons.1 hout with rfl | h
      · rfl
      · exact hall out h

/-- C19: the proximity check reads only the `current` points, which no `draw`
clears. From `setup`, after one frame in which each trail is updated once (left
at `(0, 0)`, right at `(50, 0)`, 50 apart), both histories have fewer than two
points; and in every following frame with no detections, whatever the clock and
frame counter, no trail is drawn and the overlay image still is: the frame's
output is exactly the background and the centred image. -/
theorem overlay_persists_without_trails (cv : Canvas) (fs : List (ℚ × ℕ)) :
    ∃ (s1 : Sketch) (out1 : List DrawCmd),
      Sketch.draw cv Sketch.setup
        [⟨9 / 10, "Left", List.replicate 21 ⟨0, 0⟩⟩, ⟨9 / 10, "Right", List.replicate 21 ⟨50, 0⟩⟩]
        200 7 = Except.ok (s1, out1) ∧
      s1.fingerTrailLeft.current = some ⟨0, 0⟩ ∧ s1.fingerTrailRight.current = some ⟨50, 0⟩ ∧
      s1.fingerTrailLeft.points.length < 2 ∧ s1.fingerTrailRight.points.length < 2 ∧
      ∃ (s2 : Sketch) (outs : List (List DrawCmd)),
        Sketch.frames cv s1 (fs.map fun mf => ([], mf.1, mf.2)) = Except.ok (s2, outs) ∧
        outs.length = fs.length ∧
        ∀ out ∈ outs, out = [DrawCmd.background "#fefefe",
          DrawCmd.image (cv.width / 2 - cv.imgWidth / 2) (cv.height / 2 - cv.imgHeight / 2)] := by
  obtain ⟨s1, out1, hd, _⟩ := Sketch.draw_ok cv Sketch.setup
    [⟨9 / 10, "Left", List.replicate 21 ⟨0, 0⟩⟩, ⟨9 / 10, "Right", List.replicate 21 ⟨50, 0⟩⟩]
    200 7 (by
      intro h hh _
      simp only [List.mem_cons, List.mem_singleton, List.not_mem_nil, or_false] at hh
      rcases hh with rfl | rfl <;> simp)
  have hs1 : s1.fingerTrailLeft.current = some ⟨0, 0⟩ ∧
      s1.fingerTrailRight.current = some ⟨50, 0⟩ ∧
      s1.fingerTrailLeft.points.length < 2 ∧ s1.fingerTrailRight.points.length < 2 := by
    have hd' := hd
    simp only [Sketch.draw, Sketch.processHands, Sketch.processHand] at hd'
    have hne : ¬ ("Right" = "Left") := by decide
    norm_num [Sketch.setup, List.replicate, hne] at hd'
    rw [← hd'.1]
    norm_num [FingerTrail.draw, FingerTrail.decay, FingerTrail.update, FingerTrail.constructor,
      FingerTrail.records, FingerTrail.smoothed]
  obtain ⟨hl, hr, hpl, hpr⟩ := hs1
  exact ⟨s1, out1, hd, hl, hr, hpl, hpr,
    Sketch.frames_quiet cv fs s1 ⟨0, 0⟩ ⟨50, 0⟩ hl hr
      (by unfold distLt easterEggThreshold; norm_num) hpl hpr⟩
